import Mathlib

/-
Shallow embedding of the js-datatypes utility repository and verification of
its specification claims.

Modelling conventions:
- JavaScript numbers are modelled exactly by unnormalised rationals
  (integer numerator, positive natural denominator) together with the three
  IEEE special values NaN, +Infinity and -Infinity.  All the data handled by
  the repository is small integer data, so the double rounding of IEEE
  arithmetic never shows up on the inputs of interest; sums, differences and
  comparisons are modelled as exact rational operations.
- JavaScript strings are modelled as Lean strings; every string operation is
  carried out on the underlying character list.  Case conversion is the
  per-character ASCII map (the repository only handles Latin-script data).
- Dynamically typed values are modelled by the inductive JSVal.  Property
  access on null or undefined raises a TypeError; this is modelled by the
  Except monad.  A function body that can throw has type Except Unit _.
-/

-- ===== Unnormalised rational numbers (exact model of finite doubles) =====

/-- Unnormalised rational: numerator and (positive by construction)
denominator.  Equality and order are the cross-multiplication relations. -/
structure JQ where
  n : Int
  d : Nat
deriving DecidableEq

def JQ.ofInt (i : Int) : JQ := ⟨i, 1⟩

def jqZero : JQ := ⟨0, 1⟩

def JQ.add (a b : JQ) : JQ := ⟨a.n * b.d + b.n * a.d, a.d * b.d⟩

def JQ.neg (a : JQ) : JQ := ⟨-a.n, a.d⟩

def JQ.sub (a b : JQ) : JQ := ⟨a.n * b.d - b.n * a.d, a.d * b.d⟩

def JQ.mul (a b : JQ) : JQ := ⟨a.n * b.n, a.d * b.d⟩

/-- Value-level less-or-equal by cross multiplication. -/
def JQ.leB (a b : JQ) : Bool := decide (a.n * (b.d : Int) ≤ b.n * (a.d : Int))

/-- Value-level strict less-than by cross multiplication. -/
def JQ.ltB (a b : JQ) : Bool := decide (a.n * (b.d : Int) < b.n * (a.d : Int))

/-- Floor of a rational with positive denominator (Euclidean division by a
positive divisor is the floor). -/
def JQ.floorI (a : JQ) : Int := a.n.ediv a.d

-- ===== JavaScript numbers =====

/-- JavaScript number: NaN, the two infinities, or a finite value. -/
inductive JSNum where
  | nan : JSNum
  | inf : JSNum
  | ninf : JSNum
  | val : JQ → JSNum
deriving DecidableEq

def JSNum.add : JSNum → JSNum → JSNum
  | .nan, _ => .nan
  | _, .nan => .nan
  | .inf, .ninf => .nan
  | .ninf, .inf => .nan
  | .inf, _ => .inf
  | _, .inf => .inf
  | .ninf, _ => .ninf
  | _, .ninf => .ninf
  | .val a, .val b => .val (a.add b)

def JSNum.neg : JSNum → JSNum
  | .nan => .nan
  | .inf => .ninf
  | .ninf => .inf
  | .val a => .val a.neg

def JSNum.sub (a b : JSNum) : JSNum := a.add b.neg

/-- JavaScript relational comparison a less-or-equal b; false whenever either
operand is NaN. -/
def JSNum.leB : JSNum → JSNum → Bool
  | .nan, _ => false
  | _, .nan => false
  | .ninf, _ => true
  | _, .ninf => false
  | _, .inf => true
  | .inf, _ => false
  | .val a, .val b => a.leB b

/-- JavaScript relational comparison a strictly-less b; false whenever either
operand is NaN. -/
def JSNum.ltB : JSNum → JSNum → Bool
  | .nan, _ => false
  | _, .nan => false
  | .inf, _ => false
  | _, .inf => true
  | _, .ninf => false
  | .ninf, _ => true
  | .val a, .val b => a.ltB b

def JSNum.gtB (a b : JSNum) : Bool := JSNum.ltB b a

/-- Reciprocal of a finite nonzero rational, keeping the denominator
positive. -/
def JQ.inv (b : JQ) : JQ :=
  if 0 ≤ b.n then ⟨(b.d : Int), b.n.toNat⟩ else ⟨-(b.d : Int), (-b.n).toNat⟩

/-- JavaScript division; division of a nonzero finite value by zero gives a
signed infinity, zero by zero gives NaN. -/
def JSNum.div : JSNum → JSNum → JSNum
  | .nan, _ => .nan
  | _, .nan => .nan
  | .inf, .val _ => .inf
  | .ninf, .val _ => .ninf
  | .inf, _ => .nan
  | .ninf, _ => .nan
  | .val _, .inf => .val jqZero
  | .val _, .ninf => .val jqZero
  | .val a, .val b =>
    if b.n = 0 then
      if a.n = 0 then .nan
      else if 0 < a.n then .inf else .ninf
    else .val (a.mul b.inv)

/-- Math.round: floor of x + 1/2 on finite values, identity on the special
values. -/
def JSNum.round : JSNum → JSNum
  | .nan => .nan
  | .inf => .inf
  | .ninf => .ninf
  | .val a => .val (JQ.ofInt ((a.add ⟨1, 2⟩).floorI))

-- ===== Dynamically typed JavaScript values =====

/-- Plain JavaScript value as handled by the repository: primitives, arrays
and plain objects (an object is its own-property list in insertion order). -/
inductive JSVal where
  | undef : JSVal
  | null : JSVal
  | bool : Bool → JSVal
  | num : JSNum → JSVal
  | str : String → JSVal
  | arr : List JSVal → JSVal
  | obj : List (String × JSVal) → JSVal

/-- Truthiness of a value (ToBoolean). -/
def JSVal.truthy : JSVal → Bool
  | .undef => false
  | .null => false
  | .bool b => b
  | .num .nan => false
  | .num (.val q) => decide (q.n ≠ 0)
  | .num _ => true
  | .str s => decide (s ≠ "")
  | .arr _ => true
  | .obj _ => true

/-- Property access on null or undefined throws a TypeError. -/
def JSVal.nullish : JSVal → Bool
  | .undef => true
  | .null => true
  | _ => false

/-- Own-property read on a value already known not to be nullish; absent
properties (and properties of primitives and arrays) read as undefined. -/
def getProp (v : JSVal) (f : String) : JSVal :=
  match v with
  | .obj fields =>
    match fields.lookup f with
    | some x => x
    | none => .undef
  | _ => (.undef)

/-- Property read in the exception monad: throws exactly on a nullish base
value (TypeError: cannot read properties of null / undefined). -/
def getPropE (v : JSVal) (f : String) : Except Unit JSVal :=
  match v with
  | .undef => .error ()
  | .null => .error ()
  | _ => .ok (getProp v f)

example : getPropE (JSVal.obj [("a", JSVal.null)]) "a" = .ok JSVal.null := rfl
example : getPropE JSVal.null "a" = .error () := rfl
example : JQ.leB ⟨1, 2⟩ ⟨2, 3⟩ = true := by decide
example : JSNum.ltB (.val ⟨-1, 1⟩) (.val jqZero) = true := by decide
example : JSNum.leB .nan .nan = false := rfl

-- ===== String helpers (all on the underlying character list) =====

/-- JavaScript whitespace characters recognised by trim and by string-to-number
coercion (ASCII whitespace plus NBSP and the BOM). -/
def jsWsChar (c : Char) : Bool :=
  c == ' ' || c == '\t' || c == '\n' || c == '\r' ||
  c == '\x0b' || c == '\x0c' || c == ' ' || c == '﻿'

def trimChars (cs : List Char) : List Char :=
  ((cs.dropWhile jsWsChar).reverse.dropWhile jsWsChar).reverse

/-- String.prototype.trim. -/
def jsTrim (s : String) : String := String.mk (trimChars s.data)

/-- Test whether the second list begins with the first. -/
def leadsWith : List Char → List Char → Bool
  | [], _ => true
  | _ :: _, [] => false
  | c :: cs, d :: ds => c == d && leadsWith cs ds

/-- Test whether pat occurs as a contiguous run anywhere in s
(String.prototype.includes). -/
def hasSeq (pat : List Char) : List Char → Bool
  | [] => leadsWith pat []
  | c :: cs => leadsWith pat (c :: cs) || hasSeq pat cs

/-- First index at or after position i where pat occurs
(String.prototype.indexOf with a start position); none when absent. -/
def seekSeqAux (pat : List Char) (i : Nat) : List Char → Option Nat
  | [] => if leadsWith pat [] then some i else none
  | c :: cs => if leadsWith pat (c :: cs) then some i else seekSeqAux pat (i + 1) cs

def seekSeq (pat s : List Char) (start : Nat) : Option Nat :=
  match seekSeqAux pat start (s.drop start) with
  | some i => some i
  | none => none

/-- String.prototype.slice with both endpoints (indices already clamped by
the callers we model). -/
def sliceChars (cs : List Char) (a b : Nat) : List Char := (cs.take b).drop a

def lowerChars (cs : List Char) : List Char := cs.map Char.toLower

def upperChars (cs : List Char) : List Char := cs.map Char.toUpper

/-- String.prototype.toLowerCase, per-character ASCII model. -/
def jsToLower (s : String) : String := String.mk (lowerChars s.data)

/-- String.prototype.toUpperCase, per-character ASCII model. -/
def jsToUpper (s : String) : String := String.mk (upperChars s.data)

/-- String.prototype.padEnd with a space fill. -/
def jsPadEnd (s : String) (w : Nat) : String :=
  String.mk (s.data ++ List.replicate (w - s.data.length) ' ')

/-- Code-unit lexicographic strict order on strings (JavaScript relational
comparison of two strings). -/
def strLtB : List Char → List Char → Bool
  | [], [] => false
  | [], _ :: _ => true
  | _ :: _, [] => false
  | c :: cs, d :: ds =>
    if c.toNat < d.toNat then true
    else if d.toNat < c.toNat then false
    else strLtB cs ds

-- ===== String to number coercion (ECMA StringNumericLiteral) =====

def isDig (c : Char) : Bool := '0' ≤ c && c ≤ '9'

def digitVal (c : Char) : Nat := c.toNat - '0'.toNat

def natOfDigits (cs : List Char) : Nat :=
  cs.foldl (fun a c => a * 10 + digitVal c) 0

def isHexDig (c : Char) : Bool :=
  isDig c || ('a' ≤ c && c ≤ 'f') || ('A' ≤ c && c ≤ 'F')

def hexVal (c : Char) : Nat :=
  if isDig c then digitVal c
  else if 'a' ≤ c && c ≤ 'f' then c.toNat - 'a'.toNat + 10
  else c.toNat - 'A'.toNat + 10

def natOfHex (cs : List Char) : Nat :=
  cs.foldl (fun a c => a * 16 + hexVal c) 0

def natOfRadix (r : Nat) (dv : Char → Nat) (cs : List Char) : Nat :=
  cs.foldl (fun a c => a * r + dv c) 0

/-- Scale a rational by a signed power of ten (decimal exponent part). -/
def jqScale10 (q : JQ) (e : Int) : JQ :=
  if 0 ≤ e then ⟨q.n * (10 ^ e.toNat : Nat), q.d⟩ else ⟨q.n, q.d * 10 ^ (-e).toNat⟩

/-- Read the optional exponent part of a decimal literal; none on a malformed
exponent, some of the signed exponent otherwise. -/
def readExpo : List Char → Option Int
  | [] => some 0
  | e :: r =>
    if e == 'e' || e == 'E' then
      match r with
      | '+' :: ds => if ds ≠ [] && ds.all isDig then some (natOfDigits ds : Int) else none
      | '-' :: ds => if ds ≠ [] && ds.all isDig then some (-(natOfDigits ds : Int)) else none
      | ds => if ds ≠ [] && ds.all isDig then some (natOfDigits ds : Int) else none
    else none

/-- Read an unsigned decimal literal: digits, digits.digits, .digits, digits.
with an optional exponent; none when malformed. -/
def readDec (cs : List Char) : Option JQ :=
  let ds := cs.takeWhile isDig
  let rest := cs.dropWhile isDig
  match rest with
  | [] => if ds = [] then none else some (JQ.ofInt (natOfDigits ds))
  | '.' :: r2 =>
    let fs := r2.takeWhile isDig
    let r3 := r2.dropWhile isDig
    if ds = [] && fs = [] then none
    else
      match readExpo r3 with
      | some e => some (jqScale10 ⟨(natOfDigits (ds ++ fs) : Int), 10 ^ fs.length⟩ e)
      | none => none
  | _ =>
    if ds = [] then none
    else
      match readExpo rest with
      | some e => some (jqScale10 (JQ.ofInt (natOfDigits ds)) e)
      | none => none

def infChars : List Char := ['I','n','f','i','n','i','t','y']

/-- Signed part of a string numeric literal (after a leading + or - only a
decimal literal or Infinity may follow). -/
def readSigned (cs : List Char) (negative : Bool) : JSNum :=
  if cs = infChars then (if negative then .ninf else .inf)
  else
    match readDec cs with
    | some q => .val (if negative then q.neg else q)
    | none => .nan

/-- ToNumber on a string (ECMA StringNumericLiteral): whitespace is trimmed,
the empty string is 0, and the body may be a signed decimal literal, a signed
Infinity, or an unsigned hex, octal or binary literal. -/
def jsStringToNumber (s : String) : JSNum :=
  match trimChars s.data with
  | [] => .val jqZero
  | '+' :: r => readSigned r false
  | '-' :: r => readSigned r true
  | t =>
    if t = infChars then .inf
    else match t with
    | '0' :: x :: r =>
      if (x == 'x' || x == 'X') then
        (if r ≠ [] && r.all isHexDig then .val (JQ.ofInt (natOfHex r)) else .nan)
      else if (x == 'o' || x == 'O') then
        (if r ≠ [] && r.all (fun c => '0' ≤ c && c ≤ '7') then
          .val (JQ.ofInt (natOfRadix 8 digitVal r)) else .nan)
      else if (x == 'b' || x == 'B') then
        (if r ≠ [] && r.all (fun c => c == '0' || c == '1') then
          .val (JQ.ofInt (natOfRadix 2 digitVal r)) else .nan)
      else
        (match readDec t with
         | some q => .val q
         | none => .nan)
    | _ =>
      match readDec t with
      | some q => .val q
      | none => .nan

/-- Global isNaN applied to a string argument, as in the PNR validation. -/
def jsIsNaNStr (s : String) : Bool := jsStringToNumber s == .nan

example : jsStringToNumber "1234567890" = .val ⟨1234567890, 1⟩ := by decide
example : jsIsNaNStr "123456789x" = true := by decide
example : jsIsNaNStr "-123456789" = false := by decide
example : jsIsNaNStr "12345.6789" = false := by decide
example : jsIsNaNStr "0x1234ABCD" = false := by decide
example : jsIsNaNStr "  12345678" = false := by decide
example : jsIsNaNStr "" = false := by decide
example : jsIsNaNStr "12e3" = false := by decide
example : jsIsNaNStr "." = true := by decide
example : jsIsNaNStr "+Infinity " = false := by decide

-- ===== ToString, ToPrimitive and the generic operators =====

/-- Display form of a JavaScript number.  Integral values print as integers;
a non-integral value is shown as numerator/denominator (the exact decimal
formatting of doubles is irrelevant to every claim, only totality and
determinism matter). -/
def numDisplay : JSNum → String
  | .nan => "NaN"
  | .inf => "Infinity"
  | .ninf => "-Infinity"
  | .val q =>
    if q.n.emod q.d = 0 then toString (q.n.ediv q.d)
    else toString q.n ++ "/" ++ toString q.d

def joinComma : List String → String
  | [] => ""
  | [s] => s
  | s :: rest => s ++ "," ++ joinComma rest

mutual

/-- ToString of a plain value; arrays display as the comma join of their
elements (Array.prototype.toString), plain objects as [object Object]. -/
def jsDisplay : JSVal → String
  | .undef => "undefined"
  | .null => "null"
  | .bool b => if b then "true" else "false"
  | .num n => numDisplay n
  | .str s => s
  | .arr xs => joinComma (jsDisplayList xs)
  | .obj _ => "[object Object]"

def jsDisplayList : List JSVal → List String
  | [] => []
  | v :: vs => jsDisplay v :: jsDisplayList vs

end

/-- ToPrimitive on a plain value: arrays and objects become their display
string (plain objects and arrays have the default valueOf, so their string
conversion is used); primitives are unchanged. -/
def jsToPrim : JSVal → JSVal
  | .arr xs => .str (jsDisplay (.arr xs))
  | .obj fs => .str (jsDisplay (.obj fs))
  | v => v

/-- ToNumber on a plain value. -/
def jsToNumber (v : JSVal) : JSNum :=
  match jsToPrim v with
  | .undef => .nan
  | .null => .val jqZero
  | .bool b => .val (JQ.ofInt (if b then 1 else 0))
  | .num n => n
  | .str s => jsStringToNumber s
  | _ => .nan

/-- JavaScript binary + : string concatenation when either primitive operand
is a string, numeric addition otherwise. -/
def jsAdd (a b : JSVal) : JSVal :=
  match jsToPrim a, jsToPrim b with
  | .str s, pb => .str (s ++ jsDisplay pb)
  | pa, .str s => .str (jsDisplay pa ++ s)
  | pa, pb => .num ((jsToNumber pa).add (jsToNumber pb))

/-- JavaScript binary - : always numeric. -/
def jsSubV (a b : JSVal) : JSVal := .num ((jsToNumber a).sub (jsToNumber b))

/-- JavaScript relational < : string comparison when both primitive operands
are strings, numeric comparison otherwise (false on NaN). -/
def jsLtV (a b : JSVal) : Bool :=
  match jsToPrim a, jsToPrim b with
  | .str x, .str y => strLtB x.data y.data
  | pa, pb => (jsToNumber pa).ltB (jsToNumber pb)

def jsGtV (a b : JSVal) : Bool := jsLtV b a

instance : Inhabited JSVal := ⟨JSVal.undef⟩

-- ===== IPL auction purse manager (iplAuctionSummary) =====

/-- Result object of iplAuctionSummary.  Numeric fields stay JSVal because a
malformed price can turn the running sum into a string or NaN without
throwing, exactly as in JavaScript. -/
structure IplSummary where
  teamName : JSVal
  totalSpent : JSVal
  remaining : JSVal
  playerCount : Nat
  costliestPlayer : JSVal
  cheapestPlayer : JSVal
  averagePrice : JSNum
  byRole : List (String × JSVal)
  isOverBudget : Bool

/-- Spread copy of a value into a fresh object, as in the returned
costliestPlayer and cheapestPlayer: own properties for objects, indexed
properties for arrays and strings, the empty object for other primitives. -/
def jsSpreadCopy : JSVal → JSVal
  | .obj fs => .obj fs
  | .arr xs => .obj ((List.range xs.length).zip xs |>.map fun p => (toString p.1, p.2))
  | .str s => .obj ((List.range s.data.length).zip (s.data.map fun c => JSVal.str (String.mk [c]))
      |>.map fun p => (toString p.1, p.2))
  | _ => .obj []

/-- Fold of the totalSpent reduce: sum = sum + player.price, throwing on a
nullish player. -/
def sumPricesE : List JSVal → JSVal → Except Unit JSVal
  | [], acc => .ok acc
  | p :: ps, acc => do
    let pr ← getPropE p "price"
    sumPricesE ps (jsAdd acc pr)

/-- Fold of the costliestPlayer reduce: (max, p) => p.price > max.price ? p
: max. -/
def maxByPriceE : List JSVal → JSVal → Except Unit JSVal
  | [], m => .ok m
  | p :: ps, m => do
    let pp ← getPropE p "price"
    let mp ← getPropE m "price"
    if jsGtV pp mp then maxByPriceE ps p else maxByPriceE ps m

/-- Fold of the cheapestPlayer reduce: (min, p) => p.price < min.price ? p
: min. -/
def minByPriceE : List JSVal → JSVal → Except Unit JSVal
  | [], m => .ok m
  | p :: ps, m => do
    let pp ← getPropE p "price"
    let mp ← getPropE m "price"
    if jsLtV pp mp then minByPriceE ps p else minByPriceE ps m

/-- One step of the byRole reduce: acc[role] = (acc[role] || 0) + 1, with the
role value coerced to a property key. -/
def bumpRole (acc : List (String × JSVal)) (key : String) : List (String × JSVal) :=
  match acc.lookup key with
  | some v =>
    acc.map fun kv =>
      if kv.1 = key then (kv.1, jsAdd (if v.truthy then v else .num (.val jqZero)) (.num (.val (JQ.ofInt 1)))) else kv
  | none => acc ++ [(key, jsAdd (.num (.val jqZero)) (.num (.val (JQ.ofInt 1))))]

/-- Fold of the byRole reduce over the player list. -/
def rolesFoldE : List JSVal → List (String × JSVal) → Except Unit (List (String × JSVal))
  | [], acc => .ok acc
  | p :: ps, acc => do
    let r ← getPropE p "role"
    rolesFoldE ps (bumpRole acc (jsDisplay (jsToPrim r)))

/-- Translation of iplAuctionSummary.  Validation: null unless the team value
is truthy with a number purse not below or equal to 0 under JavaScript
comparison, and the players value is a non-empty array.  The body can throw
(Except.error) when a players element is nullish. -/
def iplAuctionSummary (team players : JSVal) : Except Unit (Option IplSummary) :=
  if !team.truthy then .ok none
  else
    match getProp team "purse" with
    | .num purse =>
      if purse.leB (.val jqZero) then .ok none
      else
        match players with
        | .arr xs =>
          if xs.length = 0 then .ok none
          else do
            let totalSpent ← sumPricesE xs (.num (.val jqZero))
            let costliest ← maxByPriceE xs (xs.headI)
            let cheapest ← minByPriceE xs (xs.headI)
            let byRole ← rolesFoldE xs []
            let playerCount := xs.length
            let averagePrice := ((jsToNumber totalSpent).div (.val (JQ.ofInt playerCount))).round
            let remaining := jsSubV (.num purse) totalSpent
            let isOverBudget := jsGtV totalSpent (.num purse)
            .ok (some {
              teamName := getProp team "name"
              totalSpent := totalSpent
              remaining := remaining
              playerCount := playerCount
              costliestPlayer := jsSpreadCopy costliest
              cheapestPlayer := jsSpreadCopy cheapest
              averagePrice := averagePrice
              byRole := byRole
              isOverBudget := isOverBudget })
        | _ => .ok none
    | _ => .ok none

/-- Discriminator: did the computation return a full result object. -/
def okSomeB {α : Type} : Except Unit (Option α) → Bool
  | .ok (some _) => true
  | _ => false

/-- Discriminator: did the computation throw. -/
def errB {α : Type} : Except Unit α → Bool
  | .error _ => true
  | _ => false

def c2team : JSVal := .obj [("name", .str "RCB"), ("purse", .num .nan)]

def c2players : JSVal :=
  .arr [.obj [("name", .str "Kohli"), ("role", .str "bat"), ("price", .num (.val ⟨1700, 1⟩))]]

example : okSomeB (iplAuctionSummary c2team c2players) = true := rfl

def c1team : JSVal := .obj [("name", .str "CSK"), ("purse", .num (.val ⟨9000, 1⟩))]

example : errB (iplAuctionSummary c1team (.arr [.null])) = true := rfl
example : okSomeB (iplAuctionSummary c1team (.arr [.str "x"])) = true := rfl

-- ===== Lemmas about the auction aggregator =====

theorem ok_bind {α β : Type} (a : α) (f : α → Except Unit β) :
    (Except.ok a : Except Unit α) >>= f = f a := rfl

theorem err_bind {α β : Type} (u : Unit) (f : α → Except Unit β) :
    (Except.error u : Except Unit α) >>= f = Except.error u := rfl

theorem getPropE_ok (v : JSVal) (f : String) (h : v.nullish = false) :
    getPropE v f = .ok (getProp v f) := by
  cases v <;> simp_all [JSVal.nullish, getPropE]

theorem getPropE_err (v : JSVal) (f : String) (h : v.nullish = true) :
    getPropE v f = .error () := by
  cases v <;> simp_all [JSVal.nullish, getPropE]

theorem sumPricesE_ok (xs : List JSVal) (acc : JSVal)
    (h : ∀ x ∈ xs, x.nullish = false) : ∃ v, sumPricesE xs acc = .ok v := by
  induction xs generalizing acc with
  | nil => exact ⟨acc, rfl⟩
  | cons p ps ih =>
    have hp := h p (List.mem_cons_self p ps)
    have ⟨v, hv⟩ := ih (jsAdd acc (getProp p "price")) (fun x hx => h x (List.mem_cons_of_mem p hx))
    exact ⟨v, by simp [sumPricesE, getPropE_ok p _ hp, ok_bind, hv]⟩

theorem sumPricesE_err (xs : List JSVal) (acc : JSVal)
    (h : ∃ x ∈ xs, x.nullish = true) : sumPricesE xs acc = .error () := by
  induction xs generalizing acc with
  | nil => simp at h
  | cons p ps ih =>
    by_cases hp : p.nullish = true
    · simp [sumPricesE, getPropE_err p _ hp, err_bind]
    · rcases h with ⟨x, hx, hxn⟩
      rcases List.mem_cons.1 hx with rfl | hx2
      · exact absurd hxn hp
      · simp [sumPricesE, getPropE_ok p _ (Bool.not_eq_true _ ▸ hp), ok_bind, ih _ ⟨x, hx2, hxn⟩]

theorem maxByPriceE_ok (xs : List JSVal) (m : JSVal)
    (h : ∀ x ∈ xs, x.nullish = false) (hm : m.nullish = false) :
    ∃ v, maxByPriceE xs m = .ok v := by
  induction xs generalizing m with
  | nil => exact ⟨m, rfl⟩
  | cons p ps ih =>
    have hp := h p (List.mem_cons_self p ps)
    have h2 := fun x hx => h x (List.mem_cons_of_mem p hx)
    by_cases hc : jsGtV (getProp p "price") (getProp m "price") = true
    · have ⟨v, hv⟩ := ih p h2 hp
      exact ⟨v, by simp [maxByPriceE, getPropE_ok p _ hp, getPropE_ok m _ hm, ok_bind, hc, hv]⟩
    · have ⟨v, hv⟩ := ih m h2 hm
      exact ⟨v, by simp [maxByPriceE, getPropE_ok p _ hp, getPropE_ok m _ hm, ok_bind, hc, hv]⟩

theorem minByPriceE_ok (xs : List JSVal) (m : JSVal)
    (h : ∀ x ∈ xs, x.nullish = false) (hm : m.nullish = false) :
    ∃ v, minByPriceE xs m = .ok v := by
  induction xs generalizing m with
  | nil => exact ⟨m, rfl⟩
  | cons p ps ih =>
    have hp := h p (List.mem_cons_self p ps)
    have h2 := fun x hx => h x (List.mem_cons_of_mem p hx)
    by_cases hc : jsLtV (getProp p "price") (getProp m "price") = true
    · have ⟨v, hv⟩ := ih p h2 hp
      exact ⟨v, by simp [minByPriceE, getPropE_ok p _ hp, getPropE_ok m _ hm, ok_bind, hc, hv]⟩
    · have ⟨v, hv⟩ := ih m h2 hm
      exact ⟨v, by simp [minByPriceE, getPropE_ok p _ hp, getPropE_ok m _ hm, ok_bind, hc, hv]⟩

theorem rolesFoldE_ok (xs : List JSVal) (acc : List (String × JSVal))
    (h : ∀ x ∈ xs, x.nullish = false) : ∃ v, rolesFoldE xs acc = .ok v := by
  induction xs generalizing acc with
  | nil => exact ⟨acc, rfl⟩
  | cons p ps ih =>
    have hp := h p (List.mem_cons_self p ps)
    have ⟨v, hv⟩ := ih (bumpRole acc (jsDisplay (jsToPrim (getProp p "role"))))
      (fun x hx => h x (List.mem_cons_of_mem p hx))
    exact ⟨v, by simp [rolesFoldE, getPropE_ok p _ hp, ok_bind, hv]⟩

/-- Validation outcome on the purse: the branch is not taken exactly when the
purse is NaN or strictly positive (NaN compares false against 0). -/
theorem purse_accept_iff (n : JSNum) :
    JSNum.leB n (.val jqZero) = false ↔ (n = .nan ∨ JSNum.ltB (.val jqZero) n = true) := by
  cases n with
  | nan => simp [JSNum.leB]
  | inf => simp [JSNum.leB, JSNum.ltB]
  | ninf => simp [JSNum.leB, JSNum.ltB]
  | val q =>
    simp [JSNum.leB, JSNum.ltB, JQ.leB, JQ.ltB, jqZero]

/-- Acceptance condition of the auction validation as the code actually
checks it: truthy team, purse of number type that is NaN or strictly
positive, and a non-empty players array. -/
def iplAccepted (t p : JSVal) : Prop :=
  t.truthy = true ∧
  (∃ n : JSNum, getProp t "purse" = .num n ∧ (n = .nan ∨ JSNum.ltB (.val jqZero) n = true)) ∧
  (∃ xs : List JSVal, p = .arr xs ∧ xs ≠ [])

/-- Monadic computation shape of the auction body: a chain of four bound
steps ending in ok some never produces ok none. -/
theorem chain4_ne_none {A B C D R : Type}
    (e1 : Except Unit A) (f2 : A → Except Unit B) (f3 : A → B → Except Unit C)
    (f4 : A → B → C → Except Unit D) (g : A → B → C → D → R) :
    (do
      let a ← e1
      let b ← f2 a
      let c ← f3 a b
      let d ← f4 a b c
      Except.ok (some (g a b c d))) ≠ (Except.ok none : Except Unit (Option R)) := by
  cases e1 with
  | error u => simp [err_bind]
  | ok a =>
    rw [ok_bind]
    cases f2 a with
    | error u => simp [err_bind]
    | ok b =>
      rw [ok_bind]
      cases f3 a b with
      | error u => simp [err_bind]
      | ok c =>
        rw [ok_bind]
        cases f4 a b c with
        | error u => simp [err_bind]
        | ok d => rw [ok_bind]; simp

/-- C2 (amended): the auction summary returns null exactly when the team is
falsy, or the purse is not of number type, or the purse is a non-NaN number
less-or-equal 0, or the players value is not a non-empty array.  A NaN purse
is accepted because NaN compares false against 0. -/
theorem iplAuctionSummary_null_iff (t p : JSVal) :
    iplAuctionSummary t p = .ok none ↔ ¬ iplAccepted t p := by
  cases htb : t.truthy with
  | false =>
    refine iff_of_true (by simp [iplAuctionSummary, htb]) (fun hacc => ?_)
    obtain ⟨h1, _, _⟩ := hacc
    rw [htb] at h1
    exact Bool.noConfusion h1
  | true =>
    cases hp : getProp t "purse" with
    | num n =>
      cases hle : JSNum.leB n (.val jqZero) with
      | true =>
        refine iff_of_true (by simp [iplAuctionSummary, htb, hp, hle]) (fun hacc => ?_)
        obtain ⟨_, ⟨m, hm, hcond⟩, _⟩ := hacc
        rw [hp] at hm
        injection hm with hnm
        rw [(purse_accept_iff n).2 (hnm ▸ hcond)] at hle
        exact Bool.noConfusion hle
      | false =>
        cases p with
        | arr xs =>
          cases xs with
          | nil =>
            refine iff_of_true (by simp [iplAuctionSummary, htb, hp, hle]) (fun hacc => ?_)
            obtain ⟨_, _, ⟨ys, hys, hne⟩⟩ := hacc
            injection hys with h
            exact hne h.symm
          | cons y ys =>
            refine iff_of_false ?_ (fun hacc => hacc
              ⟨htb, ⟨n, hp, (purse_accept_iff n).1 hle⟩, ⟨y :: ys, rfl, by simp⟩⟩)
            simp only [iplAuctionSummary, htb, hp, hle, Bool.not_true, if_false,
              List.length_cons, Nat.succ_ne_zero, List.headI]
            exact chain4_ne_none _ _ _ _ _
        | undef =>
          refine iff_of_true (by simp [iplAuctionSummary, htb, hp, hle]) (fun hacc => ?_)
          obtain ⟨_, _, ⟨ys, hys, _⟩⟩ := hacc
          exact JSVal.noConfusion hys
        | null =>
          refine iff_of_true (by simp [iplAuctionSummary, htb, hp, hle]) (fun hacc => ?_)
          obtain ⟨_, _, ⟨ys, hys, _⟩⟩ := hacc
          exact JSVal.noConfusion hys
        | bool b =>
          refine iff_of_true (by simp [iplAuctionSummary, htb, hp, hle]) (fun hacc => ?_)
          obtain ⟨_, _, ⟨ys, hys, _⟩⟩ := hacc
          exact JSVal.noConfusion hys
        | num m =>
          refine iff_of_true (by simp [iplAuctionSummary, htb, hp, hle]) (fun hacc => ?_)
          obtain ⟨_, _, ⟨ys, hys, _⟩⟩ := hacc
          exact JSVal.noConfusion hys
        | str s =>
          refine iff_of_true (by simp [iplAuctionSummary, htb, hp, hle]) (fun hacc => ?_)
          obtain ⟨_, _, ⟨ys, hys, _⟩⟩ := hacc
          exact JSVal.noConfusion hys
        | obj fs =>
          refine iff_of_true (by simp [iplAuctionSummary, htb, hp, hle]) (fun hacc => ?_)
          obtain ⟨_, _, ⟨ys, hys, _⟩⟩ := hacc
          exact JSVal.noConfusion hys
    | undef =>
      refine iff_of_true (by simp [iplAuctionSummary, htb, hp]) (fun hacc => ?_)
      obtain ⟨_, ⟨m, hm, _⟩, _⟩ := hacc
      rw [hp] at hm
      exact JSVal.noConfusion hm
    | null =>
      refine iff_of_true (by simp [iplAuctionSummary, htb, hp]) (fun hacc => ?_)
      obtain ⟨_, ⟨m, hm, _⟩, _⟩ := hacc
      rw [hp] at hm
      exact JSVal.noConfusion hm
    | bool b =>
      refine iff_of_true (by simp [iplAuctionSummary, htb, hp]) (fun hacc => ?_)
      obtain ⟨_, ⟨m, hm, _⟩, _⟩ := hacc
      rw [hp] at hm
      exact JSVal.noConfusion hm
    | str s =>
      refine iff_of_true (by simp [iplAuctionSummary, htb, hp]) (fun hacc => ?_)
      obtain ⟨_, ⟨m, hm, _⟩, _⟩ := hacc
      rw [hp] at hm
      exact JSVal.noConfusion hm
    | arr xs2 =>
      refine iff_of_true (by simp [iplAuctionSummary, htb, hp]) (fun hacc => ?_)
      obtain ⟨_, ⟨m, hm, _⟩, _⟩ := hacc
      rw [hp] at hm
      exact JSVal.noConfusion hm
    | obj fs =>
      refine iff_of_true (by simp [iplAuctionSummary, htb, hp]) (fun hacc => ?_)
      obtain ⟨_, ⟨m, hm, _⟩, _⟩ := hacc
      rw [hp] at hm
      exact JSVal.noConfusion hm

/-- Element list of a players value (empty for a non-array). -/
def playersElems : JSVal → List JSVal
  | .arr xs => xs
  | _ => []

/-- C1 (amended): the auction summary throws a TypeError exactly when its
validation accepts the input and the validated players array contains a
null or undefined element, whose price is then read during the reduce; on
every other input it returns a full object or the null sentinel. -/
theorem iplAuctionSummary_throws_iff (t p : JSVal) :
    errB (iplAuctionSummary t p) = true ↔
      (iplAccepted t p ∧ ∃ x ∈ playersElems p, x.nullish = true) := by
  cases htb : t.truthy with
  | false =>
    refine iff_of_false (by simp [iplAuctionSummary, htb, errB]) (fun hacc => ?_)
    obtain ⟨⟨h1, _, _⟩, _⟩ := hacc
    rw [htb] at h1
    exact Bool.noConfusion h1
  | true =>
    cases hp : getProp t "purse" with
    | num n =>
      cases hle : JSNum.leB n (.val jqZero) with
      | true =>
        refine iff_of_false (by simp [iplAuctionSummary, htb, hp, hle, errB]) (fun hacc => ?_)
        obtain ⟨⟨_, ⟨m, hm, hcond⟩, _⟩, _⟩ := hacc
        rw [hp] at hm
        injection hm with hnm
        rw [(purse_accept_iff n).2 (hnm ▸ hcond)] at hle
        exact Bool.noConfusion hle
      | false =>
        cases p with
        | arr xs =>
          cases xs with
          | nil =>
            refine iff_of_false (by simp [iplAuctionSummary, htb, hp, hle, errB]) (fun hacc => ?_)
            obtain ⟨⟨_, _, ⟨ys, hys, hne⟩⟩, _⟩ := hacc
            injection hys with h
            exact hne h.symm
          | cons y ys =>
            by_cases hex : ∃ x ∈ y :: ys, x.nullish = true
            · refine iff_of_true ?_ ⟨⟨htb, ⟨n, hp, (purse_accept_iff n).1 hle⟩,
                ⟨y :: ys, rfl, by simp⟩⟩, by simpa [playersElems] using hex⟩
              simp only [iplAuctionSummary, htb, hp, hle, Bool.not_true, if_false,
                List.length_cons, Nat.succ_ne_zero, List.headI]
              rw [sumPricesE_err _ _ hex, err_bind]
              rfl
            · have hall : ∀ x ∈ y :: ys, x.nullish = false := by
                intro x hx
                cases hxn : x.nullish with
                | false => rfl
                | true => exact absurd ⟨x, hx, hxn⟩ hex
              obtain ⟨v1, h1⟩ := sumPricesE_ok (y :: ys) (.num (.val jqZero)) hall
              obtain ⟨v2, h2⟩ := maxByPriceE_ok (y :: ys) y hall (hall y (List.mem_cons_self y ys))
              obtain ⟨v3, h3⟩ := minByPriceE_ok (y :: ys) y hall (hall y (List.mem_cons_self y ys))
              obtain ⟨v4, h4⟩ := rolesFoldE_ok (y :: ys) [] hall
              refine iff_of_false ?_ (fun hacc => hex (by simpa [playersElems] using hacc.2))
              simp only [iplAuctionSummary, htb, hp, hle, Bool.not_true, if_false,
                List.length_cons, Nat.succ_ne_zero, List.headI]
              rw [h1, ok_bind, h2, ok_bind, h3, ok_bind, h4, ok_bind]
              simp [errB]
        | undef =>
          refine iff_of_false (by simp [iplAuctionSummary, htb, hp, hle, errB]) (fun hacc => ?_)
          obtain ⟨⟨_, _, ⟨ys, hys, _⟩⟩, _⟩ := hacc
          exact JSVal.noConfusion hys
        | null =>
          refine iff_of_false (by simp [iplAuctionSummary, htb, hp, hle, errB]) (fun hacc => ?_)
          obtain ⟨⟨_, _, ⟨ys, hys, _⟩⟩, _⟩ := hacc
          exact JSVal.noConfusion hys
        | bool b =>
          refine iff_of_false (by simp [iplAuctionSummary, htb, hp, hle, errB]) (fun hacc => ?_)
          obtain ⟨⟨_, _, ⟨ys, hys, _⟩⟩, _⟩ := hacc
          exact JSVal.noConfusion hys
        | num m =>
          refine iff_of_false (by simp [iplAuctionSummary, htb, hp, hle, errB]) (fun hacc => ?_)
          obtain ⟨⟨_, _, ⟨ys, hys, _⟩⟩, _⟩ := hacc
          exact JSVal.noConfusion hys
        | str s =>
          refine iff_of_false (by simp [iplAuctionSummary, htb, hp, hle, errB]) (fun hacc => ?_)
          obtain ⟨⟨_, _, ⟨ys, hys, _⟩⟩, _⟩ := hacc
          exact JSVal.noConfusion hys
        | obj fs =>
          refine iff_of_false (by simp [iplAuctionSummary, htb, hp, hle, errB]) (fun hacc => ?_)
          obtain ⟨⟨_, _, ⟨ys, hys, _⟩⟩, _⟩ := hacc
          exact JSVal.noConfusion hys
    | undef =>
      refine iff_of_false (by simp [iplAuctionSummary, htb, hp, errB]) (fun hacc => ?_)
      obtain ⟨⟨_, ⟨m, hm, _⟩, _⟩, _⟩ := hacc
      rw [hp] at hm
      exact JSVal.noConfusion hm
    | null =>
      refine iff_of_false (by simp [iplAuctionSummary, htb, hp, errB]) (fun hacc => ?_)
      obtain ⟨⟨_, ⟨m, hm, _⟩, _⟩, _⟩ := hacc
      rw [hp] at hm
      exact JSVal.noConfusion hm
    | bool b =>
      refine iff_of_false (by simp [iplAuctionSummary, htb, hp, errB]) (fun hacc => ?_)
      obtain ⟨⟨_, ⟨m, hm, _⟩, _⟩, _⟩ := hacc
      rw [hp] at hm
      exact JSVal.noConfusion hm
    | str s =>
      refine iff_of_false (by simp [iplAuctionSummary, htb, hp, errB]) (fun hacc => ?_)
      obtain ⟨⟨_, ⟨m, hm, _⟩, _⟩, _⟩ := hacc
      rw [hp] at hm
      exact JSVal.noConfusion hm
    | arr xs2 =>
      refine iff_of_false (by simp [iplAuctionSummary, htb, hp, errB]) (fun hacc => ?_)
      obtain ⟨⟨_, ⟨m, hm, _⟩, _⟩, _⟩ := hacc
      rw [hp] at hm
      exact JSVal.noConfusion hm
    | obj fs =>
      refine iff_of_false (by simp [iplAuctionSummary, htb, hp, errB]) (fun hacc => ?_)
      obtain ⟨⟨_, ⟨m, hm, _⟩, _⟩, _⟩ := hacc
      rw [hp] at hm
      exact JSVal.noConfusion hm

/-- C1 counterexample: with a valid team and a non-empty players array whose
single element is null, the auction summary throws a TypeError (reading
price of null) instead of returning a result or the sentinel. -/
theorem iplAuctionSummary_throws_on_null_player :
    errB (iplAuctionSummary c1team (.arr [.null])) = true := rfl

/-- C1 witness for the amended theorem at a concrete input. -/
theorem iplAuctionSummary_throws_iff_witness :
    errB (iplAuctionSummary c1team (.arr [.str "x", .undef])) = true :=
  (iplAuctionSummary_throws_iff c1team (.arr [.str "x", .undef])).mpr
    ⟨⟨rfl, ⟨.val ⟨9000, 1⟩, rfl, Or.inr rfl⟩, ⟨[.str "x", .undef], rfl, by simp⟩⟩,
     ⟨.undef, by simp [playersElems], rfl⟩⟩

/-- C2 counterexample: a team with a NaN purse is not rejected; the function
returns a fully populated object, not the null sentinel the claim demands. -/
theorem iplAuctionSummary_nan_purse_full_result :
    getProp c2team "purse" = .num .nan ∧ okSomeB (iplAuctionSummary c2team c2players) = true :=
  ⟨rfl, rfl⟩

/-- C2 witness for the amended theorem at a concrete input. -/
theorem iplAuctionSummary_null_iff_witness :
    iplAuctionSummary (JSVal.bool false) JSVal.null = .ok none :=
  (iplAuctionSummary_null_iff (JSVal.bool false) JSVal.null).mpr
    (fun hacc => Bool.noConfusion hacc.1)

-- ===== Indian Railway PNR status system (processRailwayPNR) =====

/-- Values of typeof object in this model: null, arrays and plain objects. -/
def JSVal.isObjType : JSVal → Bool
  | .null => true
  | .arr _ => true
  | .obj _ => true
  | _ => false

/-- Processed passenger record produced by the map. -/
structure ProcPassenger where
  formattedName : String
  bookingStatus : JSVal
  currentStatus : JSVal
  statusLabel : String
  isConfirmed : Bool

/-- Summary object of the PNR report. -/
structure PNRSummary where
  totalPassengers : Nat
  confirmed : Nat
  waiting : Nat
  cancelled : Nat
  rac : Nat
  allConfirmed : Bool
  anyWaiting : Bool

/-- Full result object of processRailwayPNR. -/
structure PNRResult where
  pnrFormatted : String
  trainInfo : String
  passengers : List ProcPassenger
  summary : PNRSummary
  chartPrepared : Bool

/-- Status classification chain of the passenger map, applied to the
already-uppercased current value: exact CAN, then the RAC, WL and
berth-letter run tests, with a catch-all default of CONFIRMED. -/
def statusLabelOf (current : String) : String :=
  if current = "CAN" then "CANCELLED"
  else if leadsWith ("RAC".data) current.data then "RAC"
  else if leadsWith ("WL".data) current.data then "WAITING"
  else if leadsWith ("B".data) current.data || leadsWith ("S".data) current.data ||
    leadsWith ("A".data) current.data || leadsWith ("M".data) current.data then "CONFIRMED"
  else "CONFIRMED"

/-- Per-passenger step of the map.  The optional chain
p.current?.toUpperCase() ?? on a nullish current gives the empty string, on
a string uppercases it, and on any other value throws (no toUpperCase on a
non-string); p.name.padEnd throws unless the name is a string. -/
def processPassenger (p : JSVal) : Except Unit ProcPassenger := do
  let cur ← getPropE p "current"
  let currentStr ← (match cur with
    | .undef => Except.ok ""
    | .null => Except.ok ""
    | .str s => Except.ok (jsToUpper s)
    | _ => Except.error ())
  let nm ← getPropE p "name"
  let nmStr ← (match nm with
    | .str s => Except.ok s
    | _ => Except.error ())
  let ag ← getPropE p "age"
  let gd ← getPropE p "gender"
  let booking ← getPropE p "booking"
  let statusLabel := statusLabelOf currentStr
  Except.ok {
    formattedName := jsPadEnd nmStr 20 ++ "(" ++ jsDisplay ag ++ "/" ++ jsDisplay gd ++ ")"
    bookingStatus := booking
    currentStatus := cur
    statusLabel := statusLabel
    isConfirmed := statusLabel == "CONFIRMED" }

/-- Map of processPassenger over the raw passenger list. -/
def mapPassE : List JSVal → Except Unit (List ProcPassenger)
  | [] => .ok []
  | p :: ps => do
    let q ← processPassenger p
    let rest ← mapPassE ps
    .ok (q :: rest)

/-- Counter part of the summary reduce. -/
structure PNRCounts where
  totalPassengers : Nat
  confirmed : Nat
  waiting : Nat
  cancelled : Nat
  rac : Nat

def pnrCountStep (acc0 : PNRCounts) (p : ProcPassenger) : PNRCounts :=
  let acc := { acc0 with totalPassengers := acc0.totalPassengers + 1 }
  if p.statusLabel = "CONFIRMED" then { acc with confirmed := acc.confirmed + 1 }
  else if p.statusLabel = "WAITING" then { acc with waiting := acc.waiting + 1 }
  else if p.statusLabel = "CANCELLED" then { acc with cancelled := acc.cancelled + 1 }
  else if p.statusLabel = "RAC" then { acc with rac := acc.rac + 1 }
  else acc

def pnrCounts (ps : List ProcPassenger) : PNRCounts :=
  ps.foldl pnrCountStep ⟨0, 0, 0, 0, 0⟩

/-- Translation of processRailwayPNR: validation of the record shape, PNR
formatting, train header, passenger map, summary and chart flag. -/
def processRailwayPNR (pnrData : JSVal) : Except Unit (Option PNRResult) :=
  if !(pnrData.truthy && pnrData.isObjType) then .ok none
  else
    match getProp pnrData "pnr" with
    | .str pnr =>
      if pnr.data.length ≠ 10 then .ok none
      else if jsIsNaNStr pnr then .ok none
      else
        let train := getProp pnrData "train"
        if !(train.truthy && train.isObjType) then .ok none
        else
          match getProp pnrData "passengers" with
          | .arr xs =>
            if xs.length = 0 then .ok none
            else do
              let processed ← mapPassE xs
              let classBooked := getProp pnrData "classBooked"
              Except.ok (some {
                pnrFormatted := String.mk (sliceChars pnr.data 0 3) ++ "-" ++
                  String.mk (sliceChars pnr.data 3 6) ++ "-" ++ String.mk (pnr.data.drop 6)
                trainInfo := "Train: " ++ jsDisplay (getProp train "number") ++ " - " ++
                  jsDisplay (getProp train "name") ++ " | " ++ jsDisplay (getProp train "from") ++
                  " → " ++ jsDisplay (getProp train "to") ++ " | Class: " ++
                  jsDisplay (if classBooked.nullish then .str "N/A" else classBooked)
                passengers := processed
                summary := {
                  totalPassengers := (pnrCounts processed).totalPassengers
                  confirmed := (pnrCounts processed).confirmed
                  waiting := (pnrCounts processed).waiting
                  cancelled := (pnrCounts processed).cancelled
                  rac := (pnrCounts processed).rac
                  allConfirmed := processed.all (·.isConfirmed)
                  anyWaiting := processed.any (fun q => q.statusLabel == "WAITING") }
                chartPrepared :=
                  (processed.filter (fun q => q.statusLabel ≠ "CANCELLED")).all (·.isConfirmed) })
          | _ => .ok none
    | _ => .ok none

def goodPassenger : JSVal :=
  .obj [("name", .str "Rahul"), ("age", .num (.val ⟨28, 1⟩)), ("gender", .str "M"),
        ("booking", .str "B1"), ("current", .str "B1")]

def goodTrain : JSVal :=
  .obj [("number", .str "12301"), ("name", .str "Rajdhani Express"),
        ("from", .str "NDLS"), ("to", .str "HWH")]

/-- Helper used by concrete counterexamples: the status labels of the
passengers of a successful result, the empty list otherwise. -/
def resultLabels : Except Unit (Option PNRResult) → List String
  | .ok (some r) => r.passengers.map (·.statusLabel)
  | _ => []

example :
    okSomeB (processRailwayPNR (.obj [("pnr", .str "1234567890"), ("train", goodTrain),
      ("classBooked", .str "3A"), ("passengers", .arr [goodPassenger])])) = true := rfl

example :
    processRailwayPNR (.obj [("pnr", .str "123456789"), ("train", goodTrain),
      ("passengers", .arr [goodPassenger])]) = .ok none := rfl

/-- Monadic computation shape of the PNR body: one bound step ending in ok
some never produces ok none. -/
theorem chain1_ne_none {A R : Type} (e1 : Except Unit A) (g : A → R) :
    (do
      let a ← e1
      Except.ok (some (g a))) ≠ (Except.ok none : Except Unit (Option R)) := by
  cases e1 with
  | error u => simp [err_bind]
  | ok a => rw [ok_bind]; simp

/-- Acceptance condition of the PNR validation as the code actually checks
it: truthy object record, string pnr of length 10 that is not NaN under
string-to-number coercion, truthy object train, non-empty passengers
array. -/
def pnrAccepted (v : JSVal) : Prop :=
  (v.truthy && v.isObjType) = true ∧
  (∃ s : String, getProp v "pnr" = .str s ∧ s.data.length = 10 ∧ jsIsNaNStr s = false) ∧
  ((getProp v "train").truthy && (getProp v "train").isObjType) = true ∧
  (∃ xs : List JSVal, getProp v "passengers" = .arr xs ∧ xs ≠ [])

/-- C5 (amended): the PNR formatter returns null exactly when the record is
not a truthy object, or its pnr is not a string of length 10 whose
Number() coercion is non-NaN (decimal points, signs, exponents, hex and
whitespace all pass this test, not only digit strings), or its train is not
a truthy object, or its passengers value is not a non-empty array. -/
theorem processRailwayPNR_null_iff (v : JSVal) :
    processRailwayPNR v = .ok none ↔ ¬ pnrAccepted v := by
  cases hv : (v.truthy && v.isObjType) with
  | false =>
    refine iff_of_true (by simp [processRailwayPNR, hv]) (fun hacc => ?_)
    obtain ⟨h1, _, _, _⟩ := hacc
    rw [hv] at h1
    exact Bool.noConfusion h1
  | true =>
    cases hp : getProp v "pnr" with
    | str s =>
      by_cases hlen : s.data.length = 10
      · cases hnan : jsIsNaNStr s with
        | true =>
          refine iff_of_true (by simp [processRailwayPNR, hv, hp, hlen, hnan]) (fun hacc => ?_)
          obtain ⟨_, ⟨u, hu, _, hun⟩, _, _⟩ := hacc
          rw [hp] at hu
          injection hu with he
          rw [← he, hnan] at hun
          exact Bool.noConfusion hun
        | false =>
          cases ht : ((getProp v "train").truthy && (getProp v "train").isObjType) with
          | false =>
            refine iff_of_true (by simp [processRailwayPNR, hv, hp, hlen, hnan, ht]) (fun hacc => ?_)
            obtain ⟨_, _, h3, _⟩ := hacc
            rw [ht] at h3
            exact Bool.noConfusion h3
          | true =>
            cases hps : getProp v "passengers" with
            | arr xs =>
              cases xs with
              | nil =>
                refine iff_of_true (by simp [processRailwayPNR, hv, hp, hlen, hnan, ht, hps])
                  (fun hacc => ?_)
                obtain ⟨_, _, _, ⟨ys, hys, hne⟩⟩ := hacc
                rw [hps] at hys
                injection hys with he
                exact hne he.symm
              | cons y ys =>
                refine iff_of_false ?_ (fun hacc => hacc
                  ⟨hv, ⟨s, hp, hlen, hnan⟩, ht, ⟨y :: ys, hps, by simp⟩⟩)
                intro h0
                simp [processRailwayPNR, hv, hp, hlen, hnan, ht, hps] at h0
                exact chain1_ne_none _ _ h0
            | undef =>
              refine iff_of_true (by simp [processRailwayPNR, hv, hp, hlen, hnan, ht, hps])
                (fun hacc => ?_)
              obtain ⟨_, _, _, ⟨ys, hys, _⟩⟩ := hacc
              rw [hps] at hys
              exact JSVal.noConfusion hys
            | null =>
              refine iff_of_true (by simp [processRailwayPNR, hv, hp, hlen, hnan, ht, hps])
                (fun hacc => ?_)
              obtain ⟨_, _, _, ⟨ys, hys, _⟩⟩ := hacc
              rw [hps] at hys
              exact JSVal.noConfusion hys
            | bool b =>
              refine iff_of_true (by simp [processRailwayPNR, hv, hp, hlen, hnan, ht, hps])
                (fun hacc => ?_)
              obtain ⟨_, _, _, ⟨ys, hys, _⟩⟩ := hacc
              rw [hps] at hys
              exact JSVal.noConfusion hys
            | num m =>
              refine iff_of_true (by simp [processRailwayPNR, hv, hp, hlen, hnan, ht, hps])
                (fun hacc => ?_)
              obtain ⟨_, _, _, ⟨ys, hys, _⟩⟩ := hacc
              rw [hps] at hys
              exact JSVal.noConfusion hys
            | str u =>
              refine iff_of_true (by simp [processRailwayPNR, hv, hp, hlen, hnan, ht, hps])
                (fun hacc => ?_)
              obtain ⟨_, _, _, ⟨ys, hys, _⟩⟩ := hacc
              rw [hps] at hys
              exact JSVal.noConfusion hys
            | obj fs =>
              refine iff_of_true (by simp [processRailwayPNR, hv, hp, hlen, hnan, ht, hps])
                (fun hacc => ?_)
              obtain ⟨_, _, _, ⟨ys, hys, _⟩⟩ := hacc
              rw [hps] at hys
              exact JSVal.noConfusion hys
      · refine iff_of_true ?_ (fun hacc => ?_)
        · simp [processRailwayPNR, hv, hp]
          intro h10
          exact absurd h10 hlen
        obtain ⟨_, ⟨u, hu, hul, _⟩, _, _⟩ := hacc
        rw [hp] at hu
        injection hu with he
        rw [← he] at hul
        exact hlen hul
    | undef =>
      refine iff_of_true (by simp [processRailwayPNR, hv, hp]) (fun hacc => ?_)
      obtain ⟨_, ⟨u, hu, _, _⟩, _, _⟩ := hacc
      rw [hp] at hu
      exact JSVal.noConfusion hu
    | null =>
      refine iff_of_true (by simp [processRailwayPNR, hv, hp]) (fun hacc => ?_)
      obtain ⟨_, ⟨u, hu, _, _⟩, _, _⟩ := hacc
      rw [hp] at hu
      exact JSVal.noConfusion hu
    | bool b =>
      refine iff_of_true (by simp [processRailwayPNR, hv, hp]) (fun hacc => ?_)
      obtain ⟨_, ⟨u, hu, _, _⟩, _, _⟩ := hacc
      rw [hp] at hu
      exact JSVal.noConfusion hu
    | num m =>
      refine iff_of_true (by simp [processRailwayPNR, hv, hp]) (fun hacc => ?_)
      obtain ⟨_, ⟨u, hu, _, _⟩, _, _⟩ := hacc
      rw [hp] at hu
      exact JSVal.noConfusion hu
    | arr xs2 =>
      refine iff_of_true (by simp [processRailwayPNR, hv, hp]) (fun hacc => ?_)
      obtain ⟨_, ⟨u, hu, _, _⟩, _, _⟩ := hacc
      rw [hp] at hu
      exact JSVal.noConfusion hu
    | obj fs =>
      refine iff_of_true (by simp [processRailwayPNR, hv, hp]) (fun hacc => ?_)
      obtain ⟨_, ⟨u, hu, _, _⟩, _, _⟩ := hacc
      rw [hp] at hu
      exact JSVal.noConfusion hu

def c5pnr : JSVal :=
  .obj [("pnr", .str "-123456789"), ("train", goodTrain), ("classBooked", .str "3A"),
        ("passengers", .arr [goodPassenger])]

/-- C5 counterexample: the pnr string -123456789 is not composed of ten
decimal digits, yet it has length 10 and Number() parses it, so the record
is accepted and a full result object is returned instead of null. -/
theorem processRailwayPNR_accepts_nondigit_pnr :
    getProp c5pnr "pnr" = .str "-123456789" ∧
    ("-123456789".data.all isDig) = false ∧
    okSomeB (processRailwayPNR c5pnr) = true :=
  ⟨rfl, by decide, rfl⟩

/-- C5 witness for the amended theorem at a concrete input. -/
theorem processRailwayPNR_null_iff_witness :
    processRailwayPNR JSVal.undef = .ok none :=
  (processRailwayPNR_null_iff JSVal.undef).mpr (fun hacc => Bool.noConfusion hacc.1)

/-- Inversion of a successful run: the validation passed and the passengers
field of the result is the successful map over the raw passenger array. -/
theorem pnr_ok_inv (v : JSVal) (r : PNRResult) (h : processRailwayPNR v = .ok (some r)) :
    ∃ xs, getProp v "passengers" = .arr xs ∧ mapPassE xs = .ok r.passengers := by
  cases hv : (v.truthy && v.isObjType) with
  | false =>
    simp only [processRailwayPNR, hv] at h
    simp at h
  | true =>
    cases hp : getProp v "pnr" with
    | str s =>
      by_cases hlen : s.data.length = 10
      · cases hnan : jsIsNaNStr s with
        | true => simp [processRailwayPNR, hv, hp, hlen, hnan] at h
        | false =>
          cases ht : ((getProp v "train").truthy && (getProp v "train").isObjType) with
          | false => simp [processRailwayPNR, hv, hp, hlen, hnan, ht] at h
          | true =>
            cases hps : getProp v "passengers" with
            | arr xs =>
              cases xs with
              | nil => simp [processRailwayPNR, hv, hp, hlen, hnan, ht, hps] at h
              | cons y ys =>
                refine ⟨y :: ys, rfl, ?_⟩
                simp [processRailwayPNR, hv, hp, hlen, hnan, ht, hps] at h
                cases hm : mapPassE (y :: ys) with
                | error u => rw [hm, err_bind] at h; exact Except.noConfusion h
                | ok l =>
                  rw [hm, ok_bind] at h
                  injection h with h1
                  injection h1 with h2
                  rw [← h2]
            | undef => simp [processRailwayPNR, hv, hp, hlen, hnan, ht, hps] at h
            | null => simp [processRailwayPNR, hv, hp, hlen, hnan, ht, hps] at h
            | bool b => simp [processRailwayPNR, hv, hp, hlen, hnan, ht, hps] at h
            | num m => simp [processRailwayPNR, hv, hp, hlen, hnan, ht, hps] at h
            | str u => simp [processRailwayPNR, hv, hp, hlen, hnan, ht, hps] at h
            | obj fs => simp [processRailwayPNR, hv, hp, hlen, hnan, ht, hps] at h
      · have hlen2 : ¬ (s.length = 10) := hlen
        simp [processRailwayPNR, hv, hp, hlen2] at h
    | undef => simp [processRailwayPNR, hv, hp] at h
    | null => simp [processRailwayPNR, hv, hp] at h
    | bool b => simp [processRailwayPNR, hv, hp] at h
    | num m => simp [processRailwayPNR, hv, hp] at h
    | arr xs2 => simp [processRailwayPNR, hv, hp] at h
    | obj fs => simp [processRailwayPNR, hv, hp] at h

/-- Value the optional chain folds the current field to: strings are
uppercased, nullish values give the empty string (other values throw and
never reach the classification). -/
def currentFold : JSVal → String
  | .str s => jsToUpper s
  | _ => ""

/-- Inversion of a successful passenger step: the produced label is the
classification chain applied to the folded current value, and isConfirmed
is the equality test against CONFIRMED. -/
theorem processPassenger_ok_inv (p : JSVal) (q : ProcPassenger)
    (hq : processPassenger p = .ok q) :
    q.statusLabel = statusLabelOf (currentFold (getProp p "current")) ∧
    q.isConfirmed = (statusLabelOf (currentFold (getProp p "current")) == "CONFIRMED") := by
  cases hnp : p.nullish with
  | true =>
    simp only [processPassenger, getPropE_err p _ hnp, err_bind] at hq
    exact Except.noConfusion hq
  | false =>
    simp only [processPassenger, getPropE_ok _ _ hnp, ok_bind] at hq
    cases hcur : getProp p "current" with
    | str s =>
      rw [hcur] at hq
      simp only [ok_bind] at hq
      cases hnm : getProp p "name" with
      | str t =>
        rw [hnm] at hq
        simp only [ok_bind] at hq
        injection hq with h1
        rw [← h1]
        simp [currentFold]
      | undef => rw [hnm] at hq; simp only [err_bind] at hq; exact Except.noConfusion hq
      | null => rw [hnm] at hq; simp only [err_bind] at hq; exact Except.noConfusion hq
      | bool b => rw [hnm] at hq; simp only [err_bind] at hq; exact Except.noConfusion hq
      | num m => rw [hnm] at hq; simp only [err_bind] at hq; exact Except.noConfusion hq
      | arr a => rw [hnm] at hq; simp only [err_bind] at hq; exact Except.noConfusion hq
      | obj o => rw [hnm] at hq; simp only [err_bind] at hq; exact Except.noConfusion hq
    | undef =>
      rw [hcur] at hq
      simp only [ok_bind] at hq
      cases hnm : getProp p "name" with
      | str t =>
        rw [hnm] at hq
        simp only [ok_bind] at hq
        injection hq with h1
        rw [← h1]
        simp [currentFold]
      | undef => rw [hnm] at hq; simp only [err_bind] at hq; exact Except.noConfusion hq
      | null => rw [hnm] at hq; simp only [err_bind] at hq; exact Except.noConfusion hq
      | bool b => rw [hnm] at hq; simp only [err_bind] at hq; exact Except.noConfusion hq
      | num m => rw [hnm] at hq; simp only [err_bind] at hq; exact Except.noConfusion hq
      | arr a => rw [hnm] at hq; simp only [err_bind] at hq; exact Except.noConfusion hq
      | obj o => rw [hnm] at hq; simp only [err_bind] at hq; exact Except.noConfusion hq
    | null =>
      rw [hcur] at hq
      simp only [ok_bind] at hq
      cases hnm : getProp p "name" with
      | str t =>
        rw [hnm] at hq
        simp only [ok_bind] at hq
        injection hq with h1
        rw [← h1]
        simp [currentFold]
      | undef => rw [hnm] at hq; simp only [err_bind] at hq; exact Except.noConfusion hq
      | null => rw [hnm] at hq; simp only [err_bind] at hq; exact Except.noConfusion hq
      | bool b => rw [hnm] at hq; simp only [err_bind] at hq; exact Except.noConfusion hq
      | num m => rw [hnm] at hq; simp only [err_bind] at hq; exact Except.noConfusion hq
      | arr a => rw [hnm] at hq; simp only [err_bind] at hq; exact Except.noConfusion hq
      | obj o => rw [hnm] at hq; simp only [err_bind] at hq; exact Except.noConfusion hq
    | bool b => rw [hcur] at hq; simp only [err_bind] at hq; exact Except.noConfusion hq
    | num m => rw [hcur] at hq; simp only [err_bind] at hq; exact Except.noConfusion hq
    | arr a => rw [hcur] at hq; simp only [err_bind] at hq; exact Except.noConfusion hq
    | obj o => rw [hcur] at hq; simp only [err_bind] at hq; exact Except.noConfusion hq

/-- Index-wise reading of a successful passenger map. -/
theorem mapPassE_ok_get (xs : List JSVal) (l : List ProcPassenger)
    (h : mapPassE xs = .ok l) (i : Nat) (p : JSVal) (hp : xs.get? i = some p) :
    ∃ q, processPassenger p = .ok q ∧ l.get? i = some q := by
  induction xs generalizing l i with
  | nil => simp at hp
  | cons x xs2 ih =>
    simp only [mapPassE] at h
    cases hx : processPassenger x with
    | error u => rw [hx, err_bind] at h; exact Except.noConfusion h
    | ok q0 =>
      rw [hx, ok_bind] at h
      cases hrest : mapPassE xs2 with
      | error u => rw [hrest, err_bind] at h; exact Except.noConfusion h
      | ok l2 =>
        rw [hrest, ok_bind] at h
        injection h with h1
        cases i with
        | zero =>
          simp only [List.get?] at hp
          injection hp with hp1
          exact ⟨q0, hp1 ▸ hx, by rw [← h1]; rfl⟩
        | succ j =>
          simp only [List.get?] at hp
          obtain ⟨q, hq, hl⟩ := ih l2 hrest j hp
          exact ⟨q, hq, by rw [← h1]; simpa using hl⟩

/-- C4 (amended): in a successfully processed PNR record, the status label
of every passenger whose current field holds a string is the claimed
priority chain — exact CAN, then prefix RAC, then prefix WL, then a
confirmed-berth letter, then the confirmed catch-all — applied to the
UPPERCASED current value (the code folds case before matching). -/
theorem processRailwayPNR_statusLabel (v : JSVal) (r : PNRResult)
    (h : processRailwayPNR v = .ok (some r)) (i : Nat) (p : JSVal)
    (hp : (playersElems (getProp v "passengers")).get? i = some p)
    (c : String) (hc : getProp p "current" = .str c) :
    (r.passengers.get? i).map (fun q => q.statusLabel) = some (statusLabelOf (jsToUpper c)) := by
  obtain ⟨xs, hxs, hmap⟩ := pnr_ok_inv v r h
  rw [hxs] at hp
  simp only [playersElems] at hp
  obtain ⟨q, hq, hl⟩ := mapPassE_ok_get xs r.passengers hmap i p hp
  rw [hl]
  obtain ⟨h1, _⟩ := processPassenger_ok_inv p q hq
  simp [h1, hc, currentFold]

def c4pass : JSVal :=
  .obj [("name", .str "Priya"), ("age", .num (.val ⟨25, 1⟩)), ("gender", .str "F"),
        ("booking", .str "B3"), ("current", .str "can")]

def c4pnr : JSVal :=
  .obj [("pnr", .str "1234567890"), ("train", goodTrain), ("classBooked", .str "3A"),
        ("passengers", .arr [c4pass])]

/-- C4 counterexample: the claimed rules applied to the raw current value
map the lowercase string can to the confirmed catch-all, but the code
uppercases first and labels the passenger CANCELLED. -/
theorem processRailwayPNR_lowercase_can :
    getProp c4pass "current" = .str "can" ∧
    statusLabelOf "can" = "CONFIRMED" ∧
    resultLabels (processRailwayPNR c4pnr) = ["CANCELLED"] :=
  ⟨rfl, rfl, rfl⟩

def wlPassenger : JSVal :=
  .obj [("name", .str "Amit"), ("age", .num (.val ⟨60, 1⟩)), ("gender", .str "M"),
        ("booking", .str "WL12"), ("current", .str "WL5")]

def c4wpnr : JSVal :=
  .obj [("pnr", .str "1234567890"), ("train", goodTrain),
        ("passengers", .arr [wlPassenger])]

/-- Total projection used to name the concrete result object of a successful
run inside closed statements. -/
def forcePNR (e : Except Unit (Option PNRResult)) : PNRResult :=
  match e with
  | .ok (some r) => r
  | _ => ⟨"", "", [], ⟨0, 0, 0, 0, 0, false, false⟩, false⟩

def c4res : PNRResult := forcePNR (processRailwayPNR c4wpnr)

/-- C4 witness for the amended theorem at a concrete input. -/
theorem processRailwayPNR_statusLabel_witness :
    (c4res.passengers.get? 0).map (fun q => q.statusLabel) =
      some (statusLabelOf (jsToUpper "WL5")) :=
  processRailwayPNR_statusLabel c4wpnr c4res rfl 0 wlPassenger rfl "WL5" rfl

/-- C10: in a successfully processed PNR record, a passenger whose current
field is absent, null or the empty string is labelled CONFIRMED with
isConfirmed true: the folded current is the empty string, which matches no
cancel, RAC or waiting rule and lands in the confirmed catch-all. -/
theorem processRailwayPNR_missing_current (v : JSVal) (r : PNRResult)
    (h : processRailwayPNR v = .ok (some r)) (i : Nat) (p : JSVal)
    (hp : (playersElems (getProp v "passengers")).get? i = some p)
    (hc : getProp p "current" = .undef ∨ getProp p "current" = .null ∨
      getProp p "current" = .str "") :
    (r.passengers.get? i).map (fun q => (q.statusLabel, q.isConfirmed)) =
      some ("CONFIRMED", true) := by
  obtain ⟨xs, hxs, hmap⟩ := pnr_ok_inv v r h
  rw [hxs] at hp
  simp only [playersElems] at hp
  obtain ⟨q, hq, hl⟩ := mapPassE_ok_get xs r.passengers hmap i p hp
  rw [hl]
  obtain ⟨h1, h2⟩ := processPassenger_ok_inv p q hq
  rcases hc with hcu | hcu | hcu <;> rw [hcu] at h1 h2 <;> simp [h1, h2, currentFold] <;> decide

def c10pass : JSVal :=
  .obj [("name", .str "Rekha"), ("age", .num (.val ⟨33, 1⟩)), ("gender", .str "F"),
        ("booking", .str "B2")]

def c10pnr : JSVal :=
  .obj [("pnr", .str "1234567890"), ("train", goodTrain),
        ("passengers", .arr [c10pass])]

def c10res : PNRResult := forcePNR (processRailwayPNR c10pnr)

/-- C10 witness: a passenger record with no current field at all processes
without failure into a CONFIRMED passenger. -/
theorem processRailwayPNR_missing_current_witness :
    (c10res.passengers.get? 0).map (fun q => (q.statusLabel, q.isConfirmed)) =
      some ("CONFIRMED", true) :=
  processRailwayPNR_missing_current c10pnr c10res rfl 0 c10pass rfl (Or.inl rfl)

-- ===== WhatsApp message parser (parseWhatsAppMessage) =====

/-- Maximal runs of non-whitespace characters: the non-empty pieces of a
split on runs of whitespace. -/
def runsAux : List Char → List Char → List (List Char)
  | [], acc => if acc = [] then [] else [acc.reverse]
  | c :: cs, acc =>
    if jsWsChar c then
      if acc = [] then runsAux cs [] else acc.reverse :: runsAux cs []
    else runsAux cs (c :: acc)

def nonWsRuns (cs : List Char) : List (List Char) := runsAux cs []

/-- Funny markers of the sentiment scan: laughing emoji, smiley glyph, or
the token haha, searched in the case-folded text. -/
def funnyMarker (s : String) : Bool :=
  hasSeq ("😂".data) s.data || hasSeq (":)".data) s.data || hasSeq ("haha".data) s.data

/-- Love markers of the sentiment scan: heart glyph, love, or pyaar. -/
def loveMarker (s : String) : Bool :=
  hasSeq ("❤".data) s.data || hasSeq ("love".data) s.data || hasSeq ("pyaar".data) s.data

/-- Parsed chat line. -/
structure WAResult where
  date : String
  time : String
  sender : String
  text : String
  wordCount : Nat
  sentiment : String

/-- Translation of parseWhatsAppMessage: locate the first comma-space, the
first space-dash-space, and the first colon-space at or after the dash;
slice out the four fields; count the whitespace-delimited non-empty tokens;
classify sentiment with funny taking priority over love. -/
def parseWhatsAppMessage (message : JSVal) : Option WAResult :=
  match message with
  | .str s =>
    let cs := s.data
    match seekSeq (", ".data) cs 0 with
    | none => none
    | some commaIndex =>
      match seekSeq (" - ".data) cs 0 with
      | none => none
      | some dashIndex =>
        match seekSeq (": ".data) cs dashIndex with
        | none => none
        | some colonIndex =>
          let text := String.mk (trimChars (cs.drop (colonIndex + 2)))
          let lowerText := jsToLower text
          some {
            date := String.mk (sliceChars cs 0 commaIndex)
            time := String.mk (sliceChars cs (commaIndex + 2) dashIndex)
            sender := String.mk (sliceChars cs (dashIndex + 3) colonIndex)
            text := text
            wordCount := (nonWsRuns text.data).length
            sentiment :=
              if funnyMarker lowerText then "funny"
              else if loveMarker lowerText then "love"
              else "neutral" }
  | _ => none

example :
    (parseWhatsAppMessage (.str "25/01/2025, 14:30 - Rahul: Bhai party kab hai? 😂")).map
      (fun r => (r.date, r.time, r.sender, r.text, r.wordCount, r.sentiment)) =
    some ("25/01/2025", "14:30", "Rahul", "Bhai party kab hai? 😂", 5, "funny") := rfl

/-- C9: on every successfully parsed line the sentiment is funny whenever a
funny marker occurs in the case-folded text (love markers present or not),
love when no funny marker but a love marker occurs, and neutral when
neither occurs. -/
theorem parseWhatsAppMessage_sentiment (m : JSVal) (r : WAResult)
    (h : parseWhatsAppMessage m = some r) :
    (funnyMarker (jsToLower r.text) = true → r.sentiment = "funny") ∧
    (funnyMarker (jsToLower r.text) = false → loveMarker (jsToLower r.text) = true →
      r.sentiment = "love") ∧
    (funnyMarker (jsToLower r.text) = false → loveMarker (jsToLower r.text) = false →
      r.sentiment = "neutral") := by
  cases m with
  | str s =>
    simp only [parseWhatsAppMessage] at h
    split at h
    · exact Option.noConfusion h
    · split at h
      · exact Option.noConfusion h
      · split at h
        · exact Option.noConfusion h
        · injection h with h4
          rw [← h4]
          refine ⟨fun hf => ?_, fun hf hl => ?_, fun hf hl => ?_⟩ <;> simp_all
  | undef => exact Option.noConfusion h
  | null => exact Option.noConfusion h
  | bool b => exact Option.noConfusion h
  | num n => exact Option.noConfusion h
  | arr a => exact Option.noConfusion h
  | obj o => exact Option.noConfusion h

def c9msg : JSVal := .str "01/12/2024, 09:15 - Priya: pyaar and haha 😂"

def c9res : WAResult := (parseWhatsAppMessage c9msg).getD ⟨"", "", "", "", 0, ""⟩

/-- C9 witness: a line containing both love and funny markers parses with
sentiment funny. -/
theorem parseWhatsAppMessage_sentiment_witness : c9res.sentiment = "funny" :=
  (parseWhatsAppMessage_sentiment c9msg c9res rfl).1 rfl

-- ===== Bollywood title fixer (fixBollywoodTitle) =====

/-- Unfolded form of the core ASCII lower-case map. -/
theorem toLower_eq (c : Char) :
    Char.toLower c = if c.toNat ≥ 65 ∧ c.toNat ≤ 90 then Char.ofNat (c.toNat + 32) else c := rfl

/-- Unfolded form of the core ASCII upper-case map. -/
theorem toUpper_eq (c : Char) :
    Char.toUpper c = if c.toNat ≥ 97 ∧ c.toNat ≤ 122 then Char.ofNat (c.toNat - 32) else c := rfl

theorem charLL (c : Char) : Char.toLower (Char.toLower c) = Char.toLower c := by
  by_cases h : c.toNat ≥ 65 ∧ c.toNat ≤ 90
  · rw [toLower_eq c, if_pos h]
    obtain ⟨h1, h2⟩ := h
    interval_cases h3 : c.toNat <;> decide
  · rw [toLower_eq c, if_neg h, toLower_eq c, if_neg h]

theorem charLUL (c : Char) :
    Char.toLower (Char.toUpper (Char.toLower c)) = Char.toLower c := by
  by_cases h : c.toNat ≥ 65 ∧ c.toNat ≤ 90
  · rw [toLower_eq c, if_pos h]
    obtain ⟨h1, h2⟩ := h
    interval_cases h3 : c.toNat <;> decide
  · rw [toLower_eq c, if_neg h]
    by_cases h2 : c.toNat ≥ 97 ∧ c.toNat ≤ 122
    · have hc := Char.ofNat_toNat c
      obtain ⟨h3, h4⟩ := h2
      interval_cases h5 : c.toNat <;> rw [← hc] <;> decide
    · rw [toUpper_eq c, if_neg h2, toLower_eq c, if_neg h]

theorem charWsL (c : Char) (h : jsWsChar c = false) : jsWsChar (Char.toLower c) = false := by
  by_cases hr : c.toNat ≥ 65 ∧ c.toNat ≤ 90
  · rw [toLower_eq c, if_pos hr]
    obtain ⟨h1, h2⟩ := hr
    interval_cases h3 : c.toNat <;> decide
  · rw [toLower_eq c, if_neg hr]
    exact h

theorem charWsU (c : Char) (h : jsWsChar c = false) : jsWsChar (Char.toUpper c) = false := by
  by_cases hr : c.toNat ≥ 97 ∧ c.toNat ≤ 122
  · rw [toUpper_eq c, if_pos hr]
    obtain ⟨h1, h2⟩ := hr
    interval_cases h3 : c.toNat <;> decide
  · rw [toUpper_eq c, if_neg hr]
    exact h

/-- ASCII code points, on which the per-character case maps above are the
exact ECMA mapping. -/
def asciiChar (c : Char) : Bool := decide (c.toNat < 128)

theorem charAsciiL (c : Char) (h : asciiChar c = true) :
    asciiChar (Char.toLower c) = true := by
  by_cases hr : c.toNat ≥ 65 ∧ c.toNat ≤ 90
  · rw [toLower_eq c, if_pos hr]
    obtain ⟨h1, h2⟩ := hr
    interval_cases h3 : c.toNat <;> decide
  · rw [toLower_eq c, if_neg hr]
    exact h

/-- Uppercase image of one character under toUpperCase: the Unicode default
case conversion sends the sharp s U+00DF to the two-character string SS
(its only multi-character uppercase expansion among the Latin-1 code
points); every other character is mapped by the single-character case map
of the embedding, which is exact on ASCII. -/
def upperChar (c : Char) : List Char :=
  if c = 'ß' then ['S', 'S'] else [Char.toUpper c]

theorem upperChar_ascii (c : Char) (h : asciiChar c = true) :
    upperChar c = [Char.toUpper c] := by
  have hne : ¬ c = 'ß' := by
    intro hc
    rw [hc] at h
    exact absurd h (by decide)
  rw [upperChar, if_neg hne]

theorem upperChar_ne_nil (c : Char) : upperChar c ≠ [] := by
  rw [upperChar]
  by_cases hc : c = 'ß'
  · rw [if_pos hc]
    exact List.cons_ne_nil _ _
  · rw [if_neg hc]
    exact List.cons_ne_nil _ _

theorem upperChar_wsFree (c : Char) (h : jsWsChar c = false) :
    ∀ d ∈ upperChar c, jsWsChar d = false := by
  rw [upperChar]
  by_cases hc : c = 'ß'
  · rw [if_pos hc]
    intro d hd
    rcases List.mem_cons.1 hd with rfl | hd2
    · rfl
    · rcases List.mem_cons.1 hd2 with rfl | hd3
      · rfl
      · exact absurd hd3 (List.not_mem_nil d)
  · rw [if_neg hc]
    intro d hd
    rcases List.mem_cons.1 hd with rfl | hd2
    · exact charWsU c h
    · exact absurd hd2 (List.not_mem_nil d)

/-- charAt(0).toUpperCase() + slice(1): empty word stays empty. -/
def capitalizeChars : List Char → List Char
  | [] => []
  | c :: cs => upperChar c ++ cs

/-- Small words kept lowercase in Title Case, as character lists. -/
def exceptionsL : List (List Char) :=
  ["ka", "ki", "ke", "se", "aur", "ya", "the", "of", "in", "a", "an"].map String.data

/-- Per-word formatting step of the map: lowercase the word, then capitalize
it when it is the first word or not an exception. -/
def fmtWord (isFirst : Bool) (w : List Char) : List Char :=
  let lw := lowerChars w
  if isFirst || !(exceptionsL.contains lw) then capitalizeChars lw else lw

/-- The indexed map of the source: index 0 gets the always-capitalize rule,
every later word the exception rule. -/
def fmtWords : List (List Char) → List (List Char)
  | [] => []
  | w :: ws => fmtWord true w :: ws.map (fmtWord false)

/-- join(" "). -/
def joinSp : List (List Char) → List Char
  | [] => []
  | [w] => w
  | w :: ws => w ++ ' ' :: joinSp ws

/-- Translation of fixBollywoodTitle: empty text for non-strings and
whitespace-only strings, otherwise the space-join of the formatted
whitespace-split words of the trimmed input. -/
def fixBollywoodTitle (title : JSVal) : String :=
  match title with
  | .str s =>
    if trimChars s.data = [] then ""
    else String.mk (joinSp (fmtWords (nonWsRuns (trimChars s.data))))
  | _ => ""

example :
    fixBollywoodTitle (.str "  DILWALE   DULHANIA   LE   JAYENGE  ") =
      "Dilwale Dulhania Le Jayenge" := rfl

example : fixBollywoodTitle (.str "dil ka kya kare") = "Dil ka Kya Kare" := rfl

example : fixBollywoodTitle (.num .nan) = "" := rfl

theorem lowerChars_lowerChars (w : List Char) : lowerChars (lowerChars w) = lowerChars w := by
  simp only [lowerChars, List.map_map]
  exact List.map_congr_left (fun c _ => charLL c)

theorem lowerChars_capitalize (w : List Char) (hA : ∀ c ∈ w, asciiChar c = true) :
    lowerChars (capitalizeChars (lowerChars w)) = lowerChars w := by
  cases w with
  | nil => rfl
  | cons c cs =>
    have hlc : asciiChar (Char.toLower c) = true :=
      charAsciiL c (hA c (List.mem_cons_self c cs))
    rw [show lowerChars (c :: cs) = Char.toLower c :: lowerChars cs from rfl]
    rw [show capitalizeChars (Char.toLower c :: lowerChars cs) =
      upperChar (Char.toLower c) ++ lowerChars cs from rfl]
    rw [upperChar_ascii _ hlc, List.singleton_append]
    show Char.toLower (Char.toUpper (Char.toLower c)) :: lowerChars (lowerChars cs) = _
    rw [charLUL c, lowerChars_lowerChars]

theorem fmt_lower (b : Bool) (w : List Char) (hA : ∀ c ∈ w, asciiChar c = true) :
    lowerChars (fmtWord b w) = lowerChars w := by
  by_cases h : (b || !(exceptionsL.contains (lowerChars w))) = true
  · rw [show fmtWord b w = capitalizeChars (lowerChars w) from by rw [fmtWord]; exact if_pos h]
    exact lowerChars_capitalize w hA
  · rw [show fmtWord b w = lowerChars w from by rw [fmtWord]; exact if_neg h]
    exact lowerChars_lowerChars w

theorem fmt_idem (b : Bool) (w : List Char) (hA : ∀ c ∈ w, asciiChar c = true) :
    fmtWord b (fmtWord b w) = fmtWord b w := by
  show (if b || !(exceptionsL.contains (lowerChars (fmtWord b w))) then
    capitalizeChars (lowerChars (fmtWord b w)) else lowerChars (fmtWord b w)) = fmtWord b w
  rw [fmt_lower b w hA]
  rfl

theorem fmtWords_idem (ws : List (List Char))
    (hA : ∀ w ∈ ws, ∀ c ∈ w, asciiChar c = true) :
    fmtWords (fmtWords ws) = fmtWords ws := by
  cases ws with
  | nil => rfl
  | cons w ws2 =>
    simp only [fmtWords, List.map_map]
    rw [fmt_idem true w (hA w (List.mem_cons_self w ws2))]
    refine congrArg _ (List.map_congr_left ?_)
    intro u hu
    exact fmt_idem false u (hA u (List.mem_cons_of_mem w hu))

theorem fmt_ne_nil (b : Bool) (w : List Char) (h : w ≠ []) : fmtWord b w ≠ [] := by
  cases w with
  | nil => exact absurd rfl h
  | cons c cs =>
    rw [fmtWord]
    by_cases hc : (b || !(exceptionsL.contains (lowerChars (c :: cs)))) = true
    · rw [if_pos hc]
      show upperChar (Char.toLower c) ++ lowerChars cs ≠ []
      intro hnil
      exact upperChar_ne_nil (Char.toLower c) (List.append_eq_nil.1 hnil).1
    · rw [if_neg hc]
      simp [lowerChars]

theorem fmt_wsFree (b : Bool) (w : List Char) (h : ∀ c ∈ w, jsWsChar c = false) :
    ∀ c ∈ fmtWord b w, jsWsChar c = false := by
  have hlw : ∀ c ∈ lowerChars w, jsWsChar c = false := by
    intro c hc
    obtain ⟨d, hd, hcd⟩ := List.mem_map.1 hc
    rw [← hcd]
    exact charWsL d (h d hd)
  have hcap : ∀ c ∈ capitalizeChars (lowerChars w), jsWsChar c = false := by
    cases hw : lowerChars w with
    | nil => simp [capitalizeChars]
    | cons d ds =>
      intro c hc
      simp only [capitalizeChars, List.mem_append] at hc
      rcases hc with hc1 | hc2
      · exact upperChar_wsFree d (hlw d (by rw [hw]; exact List.mem_cons_self d ds)) c hc1
      · exact hlw c (by rw [hw]; exact List.mem_cons_of_mem d hc2)
  rw [fmtWord]
  by_cases hc : (b || !(exceptionsL.contains (lowerChars w))) = true
  · rw [if_pos hc]; exact hcap
  · rw [if_neg hc]; exact hlw

theorem runsAux_good (cs : List Char) : ∀ (acc : List Char),
    (∀ c ∈ acc, jsWsChar c = false) →
    ∀ w ∈ runsAux cs acc, w ≠ [] ∧ ∀ c ∈ w, jsWsChar c = false := by
  induction cs with
  | nil =>
    intro acc hacc w hw
    by_cases ha : acc = []
    · simp [runsAux, ha] at hw
    · simp only [runsAux, if_neg ha, List.mem_singleton] at hw
      subst hw
      exact ⟨by simpa using ha, fun c hc => hacc c (List.mem_reverse.1 hc)⟩
  | cons c cs2 ih =>
    intro acc hacc w hw
    by_cases hc : jsWsChar c = true
    · by_cases ha : acc = []
      · rw [runsAux, if_pos hc, if_pos ha] at hw
        exact ih [] (by simp) w hw
      · rw [runsAux, if_pos hc, if_neg ha] at hw
        rcases List.mem_cons.1 hw with rfl | hw2
        · exact ⟨by simpa using ha, fun d hd => hacc d (List.mem_reverse.1 hd)⟩
        · exact ih [] (by simp) w hw2
    · rw [runsAux, if_neg hc] at hw
      refine ih (c :: acc) ?_ w hw
      intro d hd
      rcases List.mem_cons.1 hd with rfl | hd2
      · exact Bool.not_eq_true _ ▸ hc
      · exact hacc d hd2

theorem runsAux_word (w : List Char) (hw : ∀ c ∈ w, jsWsChar c = false) :
    ∀ (rest acc : List Char), runsAux (w ++ rest) acc = runsAux rest (w.reverse ++ acc) := by
  induction w with
  | nil => intro rest acc; simp
  | cons c w2 ihw =>
    intro rest acc
    have hc : jsWsChar c = false := hw c (List.mem_cons_self c w2)
    rw [List.cons_append, runsAux, if_neg (by rw [hc]; exact Bool.false_ne_true)]
    rw [ihw (fun d hd => hw d (List.mem_cons_of_mem c hd)) rest (c :: acc)]
    simp

theorem runsAux_ne_nil (cs : List Char) : ∀ (acc : List Char), acc ≠ [] →
    runsAux cs acc ≠ [] := by
  induction cs with
  | nil => intro acc ha; simp [runsAux, ha]
  | cons c cs2 ih =>
    intro acc ha
    by_cases hc : jsWsChar c = true
    · rw [runsAux, if_pos hc, if_neg ha]
      exact List.cons_ne_nil _ _
    · rw [runsAux, if_neg hc]
      exact ih (c :: acc) (List.cons_ne_nil c acc)

theorem joinSp_runs (ws : List (List Char))
    (h : ∀ w ∈ ws, w ≠ [] ∧ ∀ c ∈ w, jsWsChar c = false) :
    nonWsRuns (joinSp ws) = ws := by
  induction ws with
  | nil => rfl
  | cons w ws2 ih =>
    obtain ⟨hwne, hwf⟩ := h w (List.mem_cons_self w ws2)
    cases ws2 with
    | nil =>
      show runsAux (joinSp [w]) [] = [w]
      rw [show joinSp [w] = w from rfl, show (w : List Char) = w ++ [] from by simp,
        runsAux_word w hwf [] []]
      simp [runsAux, hwne]
    | cons w2 ws3 =>
      show runsAux (joinSp (w :: w2 :: ws3)) [] = w :: w2 :: ws3
      rw [show joinSp (w :: w2 :: ws3) = w ++ (' ' :: joinSp (w2 :: ws3)) from rfl,
        runsAux_word w hwf _ []]
      rw [runsAux, if_pos (by decide), if_neg (by simpa using hwne)]
      rw [List.append_nil, List.reverse_reverse]
      have := ih (fun u hu => h u (List.mem_cons_of_mem w hu))
      rw [show runsAux (joinSp (w2 :: ws3)) [] = nonWsRuns (joinSp (w2 :: ws3)) from rfl, this]

theorem runsAux_wsOnly (suf : List Char) (h : ∀ c ∈ suf, jsWsChar c = true) :
    ∀ acc, runsAux suf acc = runsAux [] acc := by
  induction suf with
  | nil => intro acc; rfl
  | cons c suf2 ih =>
    intro acc
    have hc : jsWsChar c = true := h c (List.mem_cons_self c suf2)
    have ih2 := ih (fun d hd => h d (List.mem_cons_of_mem c hd))
    simp only [runsAux, hc, if_true]
    by_cases ha : acc = []
    · rw [if_pos ha, if_pos ha, ih2 []]
      rfl
    · rw [if_neg ha, if_neg ha, ih2 []]
      rfl

theorem runs_append_ws (cs : List Char) (suf : List Char)
    (h : ∀ c ∈ suf, jsWsChar c = true) :
    ∀ acc, runsAux (cs ++ suf) acc = runsAux cs acc := by
  induction cs with
  | nil =>
    intro acc
    rw [List.nil_append, runsAux_wsOnly suf h acc]
  | cons c cs2 ih =>
    intro acc
    by_cases hc : jsWsChar c = true
    · by_cases ha : acc = []
      · rw [List.cons_append, runsAux, if_pos hc, if_pos ha, runsAux, if_pos hc, if_pos ha, ih]
      · rw [List.cons_append, runsAux, if_pos hc, if_neg ha, runsAux, if_pos hc, if_neg ha, ih]
    · rw [List.cons_append, runsAux, if_neg hc, runsAux, if_neg hc, ih]

theorem runs_dropWhile (cs : List Char) :
    nonWsRuns (cs.dropWhile jsWsChar) = nonWsRuns cs := by
  induction cs with
  | nil => rfl
  | cons c cs2 ih =>
    by_cases hc : jsWsChar c = true
    · rw [List.dropWhile_cons, if_pos hc, ih]
      show nonWsRuns cs2 = runsAux (c :: cs2) []
      rw [runsAux, if_pos hc, if_pos rfl]
      rfl
    · rw [List.dropWhile_cons, if_neg hc]

theorem runs_trim (cs : List Char) : nonWsRuns (trimChars cs) = nonWsRuns cs := by
  show nonWsRuns (((cs.dropWhile jsWsChar).reverse.dropWhile jsWsChar).reverse) = nonWsRuns cs
  set front := cs.dropWhile jsWsChar with hf
  have hdec : front = (front.reverse.dropWhile jsWsChar).reverse ++
      (front.reverse.takeWhile jsWsChar).reverse := by
    conv_lhs => rw [← List.reverse_reverse front,
      ← List.takeWhile_append_dropWhile jsWsChar front.reverse]
    rw [List.reverse_append]
  have hsuf : ∀ c ∈ (front.reverse.takeWhile jsWsChar).reverse, jsWsChar c = true := by
    intro c hc
    exact List.mem_takeWhile_imp (List.mem_reverse.1 hc)
  calc nonWsRuns ((front.reverse.dropWhile jsWsChar).reverse)
      = nonWsRuns ((front.reverse.dropWhile jsWsChar).reverse ++
          (front.reverse.takeWhile jsWsChar).reverse) := (runs_append_ws _ _ hsuf []).symm
    _ = nonWsRuns front := by rw [← hdec]
    _ = nonWsRuns cs := by rw [hf]; exact runs_dropWhile cs

theorem nonWsRuns_nil_iff (cs : List Char) :
    nonWsRuns cs = [] ↔ ∀ c ∈ cs, jsWsChar c = true := by
  induction cs with
  | nil => simp [nonWsRuns, runsAux]
  | cons c cs2 ih =>
    by_cases hc : jsWsChar c = true
    · constructor
      · intro h0 d hd
        rcases List.mem_cons.1 hd with rfl | hd2
        · exact hc
        · refine (ih.1 ?_) d hd2
          show runsAux cs2 [] = []
          rw [show runsAux cs2 [] = runsAux (c :: cs2) [] from by
            rw [runsAux, if_pos hc, if_pos rfl]]
          exact h0
      · intro hall
        show runsAux (c :: cs2) [] = []
        rw [runsAux, if_pos hc, if_pos rfl]
        exact ih.2 (fun d hd => hall d (List.mem_cons_of_mem c hd))
    · constructor
      · intro h0
        exfalso
        refine runsAux_ne_nil cs2 [c] (List.cons_ne_nil c []) ?_
        rw [show runsAux cs2 [c] = runsAux (c :: cs2) [] from by rw [runsAux, if_neg hc]]
        exact h0
      · intro hall
        exact absurd (hall c (List.mem_cons_self c cs2)) (by simpa using hc)

theorem trim_nil_iff (cs : List Char) :
    trimChars cs = [] ↔ ∀ c ∈ cs, jsWsChar c = true := by
  show (((cs.dropWhile jsWsChar).reverse.dropWhile jsWsChar).reverse = []) ↔ _
  rw [List.reverse_eq_nil_iff, List.dropWhile_eq_nil_iff]
  constructor
  · intro h0 c hc
    by_cases hmem : c ∈ cs.dropWhile jsWsChar
    · exact h0 c (List.mem_reverse.2 hmem)
    · have hsplit := List.takeWhile_append_dropWhile jsWsChar cs
      have : c ∈ cs.takeWhile jsWsChar ++ cs.dropWhile jsWsChar := by rw [hsplit]; exact hc
      rcases List.mem_append.1 this with h1 | h1
      · exact List.mem_takeWhile_imp h1
      · exact absurd h1 hmem
  · intro hall c hc
    refine hall c ?_
    have hsub := List.dropWhile_sublist (p := jsWsChar) (l := cs)
    exact hsub.mem (List.mem_reverse.1 hc)

theorem fmtWords_mem (ws : List (List Char)) (w : List Char) (h : w ∈ fmtWords ws) :
    ∃ b w0, w0 ∈ ws ∧ w = fmtWord b w0 := by
  cases ws with
  | nil => simp [fmtWords] at h
  | cons w1 ws2 =>
    rcases List.mem_cons.1 h with rfl | h2
    · exact ⟨true, w1, List.mem_cons_self w1 ws2, rfl⟩
    · obtain ⟨w0, hw0, he⟩ := List.mem_map.1 h2
      exact ⟨false, w0, List.mem_cons_of_mem w1 hw0, he.symm⟩

theorem fmtWords_good (ws : List (List Char))
    (h : ∀ w ∈ ws, w ≠ [] ∧ ∀ c ∈ w, jsWsChar c = false) :
    ∀ w ∈ fmtWords ws, w ≠ [] ∧ ∀ c ∈ w, jsWsChar c = false := by
  intro w hw
  obtain ⟨b, w0, hw0, rfl⟩ := fmtWords_mem ws w hw
  obtain ⟨hne, hwf⟩ := h w0 hw0
  exact ⟨fmt_ne_nil b w0 hne, fmt_wsFree b w0 hwf⟩

theorem runsAux_pred (p : Char → Bool) (cs : List Char) : ∀ (acc : List Char),
    (∀ c ∈ cs, p c = true) → (∀ c ∈ acc, p c = true) →
    ∀ w ∈ runsAux cs acc, ∀ c ∈ w, p c = true := by
  induction cs with
  | nil =>
    intro acc _ hacc w hw c hc
    by_cases ha : acc = []
    · simp [runsAux, ha] at hw
    · simp only [runsAux, if_neg ha, List.mem_singleton] at hw
      subst hw
      exact hacc c (List.mem_reverse.1 hc)
  | cons d cs2 ih =>
    intro acc hcs hacc w hw
    have hcs2 : ∀ c ∈ cs2, p c = true := fun c hc => hcs c (List.mem_cons_of_mem d hc)
    have hd : p d = true := hcs d (List.mem_cons_self d cs2)
    by_cases hdw : jsWsChar d = true
    · by_cases ha : acc = []
      · rw [runsAux, if_pos hdw, if_pos ha] at hw
        exact ih [] hcs2 (by simp) w hw
      · rw [runsAux, if_pos hdw, if_neg ha] at hw
        rcases List.mem_cons.1 hw with rfl | hw2
        · exact fun c hc => hacc c (List.mem_reverse.1 hc)
        · exact ih [] hcs2 (by simp) w hw2
    · rw [runsAux, if_neg hdw] at hw
      refine ih (d :: acc) hcs2 ?_ w hw
      intro e he
      rcases List.mem_cons.1 he with rfl | he2
      · exact hd
      · exact hacc e he2

/-- C7: the title normalizer is idempotent on ASCII inputs, where the
per-character case maps are the exact ECMA conversion; the sharp s makes
the full claim false, see the companion counterexample. -/
theorem fixBollywoodTitle_idem (s : String) (hA : ∀ c ∈ s.data, asciiChar c = true) :
    fixBollywoodTitle (.str (fixBollywoodTitle (.str s))) = fixBollywoodTitle (.str s) := by
  by_cases h0 : trimChars s.data = []
  · rw [show fixBollywoodTitle (.str s) = "" from by simp [fixBollywoodTitle, h0]]
    rfl
  · have hgood : ∀ w ∈ nonWsRuns s.data, w ≠ [] ∧ ∀ c ∈ w, jsWsChar c = false :=
      runsAux_good s.data [] (by simp)
    have hgood2 : ∀ w ∈ fmtWords (nonWsRuns s.data), w ≠ [] ∧ ∀ c ∈ w, jsWsChar c = false :=
      fmtWords_good _ hgood
    have hne : nonWsRuns s.data ≠ [] := by
      intro hnil
      exact h0 ((trim_nil_iff _).2 ((nonWsRuns_nil_iff _).1 hnil))
    have hne2 : fmtWords (nonWsRuns s.data) ≠ [] := by
      cases hw : nonWsRuns s.data with
      | nil => exact absurd hw hne
      | cons w ws2 => simp [fmtWords]
    have hout : fixBollywoodTitle (.str s) =
        String.mk (joinSp (fmtWords (nonWsRuns s.data))) := by
      simp only [fixBollywoodTitle, if_neg h0, runs_trim]
    rw [hout]
    have hjoin_ne : trimChars (joinSp (fmtWords (nonWsRuns s.data))) ≠ [] := by
      rw [Ne, trim_nil_iff]
      intro hall
      cases hw : fmtWords (nonWsRuns s.data) with
      | nil => exact absurd hw hne2
      | cons w0 rest =>
        obtain ⟨hw0ne, hw0f⟩ := hgood2 w0 (by rw [hw]; exact List.mem_cons_self w0 rest)
        cases hw0 : w0 with
        | nil => exact absurd hw0 hw0ne
        | cons c0 cs0 =>
          have hmem : c0 ∈ joinSp (fmtWords (nonWsRuns s.data)) := by
            rw [hw]
            cases rest with
            | nil => rw [show joinSp [w0] = w0 from rfl, hw0]; exact List.mem_cons_self c0 cs0
            | cons w1 rest2 =>
              rw [show joinSp (w0 :: w1 :: rest2) = w0 ++ ' ' :: joinSp (w1 :: rest2) from rfl]
              exact List.mem_append_left _ (by rw [hw0]; exact List.mem_cons_self c0 cs0)
          have := hall c0 hmem
          rw [hw0f c0 (by rw [hw0]; exact List.mem_cons_self c0 cs0)] at this
          exact Bool.noConfusion this
    simp only [fixBollywoodTitle, if_neg hjoin_ne, runs_trim]
    rw [joinSp_runs _ hgood2, fmtWords_idem _
      (show ∀ w ∈ nonWsRuns s.data, ∀ c ∈ w, asciiChar c = true from
        runsAux_pred asciiChar s.data [] hA (by simp))]

/-- C7 counterexample: toUpperCase sends the sharp s to the two-character
SS, so a first pass gives SSe, whose second pass lowercases to sse and
capitalizes to Sse: the normalizer is not idempotent on all strings. -/
theorem fixBollywoodTitle_not_idem :
    fixBollywoodTitle (.str "ße") = "SSe" ∧
    fixBollywoodTitle (.str (fixBollywoodTitle (.str "ße"))) = "Sse" ∧
    fixBollywoodTitle (.str (fixBollywoodTitle (.str "ße"))) ≠ fixBollywoodTitle (.str "ße") :=
  ⟨rfl, rfl, by decide⟩

/-- C7 witness: idempotence at a concrete ASCII title. -/
theorem fixBollywoodTitle_idem_witness :
    (∀ c ∈ ("  dil KA kya  kare ").data, asciiChar c = true) ∧
    fixBollywoodTitle (.str (fixBollywoodTitle (.str "  dil KA kya  kare "))) =
      fixBollywoodTitle (.str "  dil KA kya  kare ") :=
  ⟨by decide, fixBollywoodTitle_idem "  dil KA kya  kare " (by decide)⟩

-- ===== UPI transaction log analyzer (analyzeUPITransactions) =====

/-- Transaction record.  The amount stays a dynamic value (the filter checks
its type); the remaining fields are the strings the analyzer reads.  A
number-valued to or category would be coerced to exactly these key strings,
so string fields lose no generality for the properties below.  The
counterparty field, named to in the source, is rendered toName because to
is reserved. -/
structure Txn where
  id : String
  type : String
  amount : JSVal
  toName : String
  category : String
  date : String

instance : Inhabited Txn := ⟨⟨"", "", JSVal.undef, "", "", ""⟩⟩

/-- Filter of the analyzer: amount must be of number type and strictly
positive, and type exactly credit or debit. -/
def validTxn (t : Txn) : Bool :=
  match t.amount with
  | .num n => JSNum.gtB n (.val jqZero) && (t.type == "credit" || t.type == "debit")
  | _ => false

/-- Numeric view of an amount already known to be a number. -/
def amtN (t : Txn) : JSNum :=
  match t.amount with
  | .num n => n
  | _ => .nan

/-- x || 0 on a number value. -/
def jsOrZero (v : JSNum) : JSNum := if (JSVal.num v).truthy then v else .val jqZero

/-- categoryBreakdown[k] = (categoryBreakdown[k] || 0) + amount. -/
def bumpAmount (m : List (String × JSNum)) (k : String) (a : JSNum) : List (String × JSNum) :=
  match m.lookup k with
  | some v => m.map (fun kv => if kv.1 = k then (kv.1, JSNum.add (jsOrZero v) a) else kv)
  | none => m ++ [(k, JSNum.add (jsOrZero .nan) a)]

/-- contactFrequency[k] = (contactFrequency[k] || 0) + 1; a fresh key is
appended, preserving object insertion order. -/
def bumpCount (m : List (String × Nat)) (k : String) : List (String × Nat) :=
  match m.lookup k with
  | some _ => m.map (fun kv => if kv.1 = k then (kv.1, kv.2 + 1) else kv)
  | none => m ++ [(k, 1)]

/-- Accumulator of the single reduce pass. -/
structure UPIAcc where
  totalCredit : JSNum
  totalDebit : JSNum
  categoryBreakdown : List (String × JSNum)
  contactFrequency : List (String × Nat)
  totalAmountSum : JSNum

def upiStep (acc : UPIAcc) (t : Txn) : UPIAcc :=
  let acc1 :=
    if t.type == "credit" then
      { acc with totalCredit := JSNum.add acc.totalCredit (amtN t) } else acc
  let acc2 :=
    if t.type == "debit" then
      { acc1 with totalDebit := JSNum.add acc1.totalDebit (amtN t) } else acc1
  { acc2 with
    categoryBreakdown := bumpAmount acc2.categoryBreakdown t.category (amtN t)
    contactFrequency := bumpCount acc2.contactFrequency t.toName
    totalAmountSum := JSNum.add acc2.totalAmountSum (amtN t) }

def upiTotals (ts : List Txn) : UPIAcc :=
  ts.foldl upiStep ⟨.val jqZero, .val jqZero, [], [], .val jqZero⟩

/-- Canonical array-index property keys: the decimal form of an integer
below 2^32 - 1.  Own properties with such keys are enumerated first, in
ascending numeric order, before the string keys in insertion order. -/
def isArrayIndexKey (s : String) : Bool :=
  s.data ≠ [] && s.data.all isDig && (s.data.head? = some '0' → s = "0") &&
    natOfDigits s.data < 4294967295

def insertIdxKey (kv : String × Nat) : List (String × Nat) → List (String × Nat)
  | [] => [kv]
  | kv2 :: rest =>
    if natOfDigits kv.1.data ≤ natOfDigits kv2.1.data then kv :: kv2 :: rest
    else kv2 :: insertIdxKey kv rest

def sortIdxKeys : List (String × Nat) → List (String × Nat)
  | [] => []
  | kv :: rest => insertIdxKey kv (sortIdxKeys rest)

/-- Object.entries enumeration order: array-index keys in ascending numeric
order first, then the remaining keys in insertion order. -/
def jsEntriesOrder (m : List (String × Nat)) : List (String × Nat) :=
  sortIdxKeys (m.filter (fun kv => isArrayIndexKey kv.1)) ++
    m.filter (fun kv => !(isArrayIndexKey kv.1))

/-- Frequent-contact scan: strictly greater count wins, so the first entry
holding the running maximum is kept. -/
def freqScan (entries : List (String × Nat)) : String × Nat :=
  entries.foldl (fun best kv => if best.2 < kv.2 then kv else best) ("", 0)

/-- Comparator step of the descending sort: the JavaScript comparator is
b.amount - a.amount, a NaN comparator value counts as 0, and a may stay
before b exactly when the value is not positive. -/
def sortLeTxn (a b : Txn) : Bool :=
  match JSNum.sub (amtN b) (amtN a) with
  | .nan => true
  | .inf => false
  | .ninf => true
  | .val q => decide (q.n ≤ 0)

/-- Stable insertion of one element into the descending-sorted list.
Array.prototype.sort is specified stable, and for the total preorder
induced by the comparator every stable sort returns the same list, so the
stable insertion sort is an exact model of the sort call. -/
def insertTxn (t : Txn) : List Txn → List Txn
  | [] => [t]
  | u :: us => if sortLeTxn t u then t :: u :: us else u :: insertTxn t us

def sortTxns : List Txn → List Txn
  | [] => []
  | t :: ts => insertTxn t (sortTxns ts)

/-- Result object of the analyzer. -/
structure UPIResult where
  totalCredit : JSNum
  totalDebit : JSNum
  netBalance : JSNum
  transactionCount : Nat
  avgTransaction : JSNum
  highestTransaction : Txn
  categoryBreakdown : List (String × JSNum)
  frequentContact : String
  allAbove100 : Bool
  hasLargeTransaction : Bool

/-- Translation of analyzeUPITransactions over a transaction list (a
non-list input is rejected by the array check before this point). -/
def analyzeUPITransactions (transactions : List Txn) : Option UPIResult :=
  if transactions.length = 0 then none
  else if (transactions.filter validTxn).length = 0 then none
  else
    some {
      totalCredit := (upiTotals (transactions.filter validTxn)).totalCredit
      totalDebit := (upiTotals (transactions.filter validTxn)).totalDebit
      netBalance := JSNum.sub (upiTotals (transactions.filter validTxn)).totalCredit
        (upiTotals (transactions.filter validTxn)).totalDebit
      transactionCount := (transactions.filter validTxn).length
      avgTransaction := (JSNum.div (upiTotals (transactions.filter validTxn)).totalAmountSum
        (.val (JQ.ofInt (transactions.filter validTxn).length))).round
      highestTransaction := (sortTxns (transactions.filter validTxn)).headI
      categoryBreakdown := (upiTotals (transactions.filter validTxn)).categoryBreakdown
      frequentContact := (freqScan (jsEntriesOrder
        (upiTotals (transactions.filter validTxn)).contactFrequency)).1
      allAbove100 := (transactions.filter validTxn).all
        (fun t => JSNum.gtB (amtN t) (.val ⟨100, 1⟩))
      hasLargeTransaction := (transactions.filter validTxn).any
        (fun t => JSNum.leB (.val ⟨5000, 1⟩) (amtN t)) }

def mkTxn (i : String) (ty : String) (am : Int) (toN : String) (cat : String) : Txn :=
  ⟨i, ty, .num (.val ⟨am, 1⟩), toN, cat, ""⟩

example :
    (analyzeUPITransactions [mkTxn "T1" "credit" 5000 "Salary" "income",
      mkTxn "T2" "debit" 200 "Swiggy" "food", mkTxn "T3" "debit" 100 "Swiggy" "food"]).map
      (fun r => (r.totalCredit, r.totalDebit, r.netBalance, r.transactionCount,
        r.frequentContact, r.highestTransaction.id, r.allAbove100, r.hasLargeTransaction)) =
    some (.val ⟨5000, 1⟩, .val ⟨300, 1⟩, .val ⟨4700, 1⟩, 3, "Swiggy", "T1", false, true) := rfl

theorem upiStep_credit (acc : UPIAcc) (t : Txn) :
    (upiStep acc t).totalCredit =
      if t.type == "credit" then JSNum.add acc.totalCredit (amtN t) else acc.totalCredit := by
  by_cases ht : t.type == "credit" <;> by_cases hd : t.type == "debit" <;>
    simp [upiStep, ht, hd]

theorem upiStep_debit (acc : UPIAcc) (t : Txn) :
    (upiStep acc t).totalDebit =
      if t.type == "debit" then JSNum.add acc.totalDebit (amtN t) else acc.totalDebit := by
  by_cases ht : t.type == "credit" <;> by_cases hd : t.type == "debit" <;>
    simp [upiStep, ht, hd]

theorem upiStep_freq (acc : UPIAcc) (t : Txn) :
    (upiStep acc t).contactFrequency = bumpCount acc.contactFrequency t.toName := by
  by_cases ht : t.type == "credit" <;> by_cases hd : t.type == "debit" <;>
    simp [upiStep, ht, hd]

theorem fold_credit (l : List Txn) : ∀ (acc : UPIAcc),
    (l.foldl upiStep acc).totalCredit =
      l.foldl (fun a t => if t.type == "credit" then JSNum.add a (amtN t) else a)
        acc.totalCredit := by
  induction l with
  | nil => intro acc; rfl
  | cons t l2 ih =>
    intro acc
    rw [List.foldl_cons, List.foldl_cons, ih (upiStep acc t), upiStep_credit]

theorem fold_debit (l : List Txn) : ∀ (acc : UPIAcc),
    (l.foldl upiStep acc).totalDebit =
      l.foldl (fun a t => if t.type == "debit" then JSNum.add a (amtN t) else a)
        acc.totalDebit := by
  induction l with
  | nil => intro acc; rfl
  | cons t l2 ih =>
    intro acc
    rw [List.foldl_cons, List.foldl_cons, ih (upiStep acc t), upiStep_debit]

theorem fold_freq (l : List Txn) : ∀ (acc : UPIAcc),
    (l.foldl upiStep acc).contactFrequency =
      l.foldl (fun m t => bumpCount m t.toName) acc.contactFrequency := by
  induction l with
  | nil => intro acc; rfl
  | cons t l2 ih =>
    intro acc
    rw [List.foldl_cons, List.foldl_cons, ih (upiStep acc t), upiStep_freq]

theorem foldl_add_filter (P : Txn → Bool) (l : List Txn) : ∀ (a : JSNum),
    l.foldl (fun x t => if P t then JSNum.add x (amtN t) else x) a =
      (l.filter P).foldl (fun x t => JSNum.add x (amtN t)) a := by
  induction l with
  | nil => intro a; rfl
  | cons t l2 ih =>
    intro a
    by_cases hp : P t = true
    · rw [List.foldl_cons, if_pos hp, List.filter_cons_of_pos hp, List.foldl_cons, ih]
    · rw [List.foldl_cons, if_neg hp, List.filter_cons_of_neg hp, ih]

/-- Sum of the amounts of a record list, folded left like the reduce. -/
def sumAmounts (l : List Txn) : JSNum :=
  l.foldl (fun a t => JSNum.add a (amtN t)) (.val jqZero)

/-- C6: on every transaction list with a non-empty valid subset, totalCredit
is the sum of the amounts of valid credit records, totalDebit the sum of
the amounts of valid debit records, and netBalance their difference. -/
theorem analyzeUPITransactions_sums (ts : List Txn) (r : UPIResult)
    (h : analyzeUPITransactions ts = some r) :
    r.totalCredit = sumAmounts ((ts.filter validTxn).filter (fun t => t.type == "credit")) ∧
    r.totalDebit = sumAmounts ((ts.filter validTxn).filter (fun t => t.type == "debit")) ∧
    r.netBalance = JSNum.sub r.totalCredit r.totalDebit := by
  unfold analyzeUPITransactions at h
  by_cases h1 : ts.length = 0
  · rw [if_pos h1] at h; exact Option.noConfusion h
  · rw [if_neg h1] at h
    by_cases h2 : (ts.filter validTxn).length = 0
    · rw [if_pos h2] at h; exact Option.noConfusion h
    · rw [if_neg h2] at h
      injection h with h3
      rw [← h3]
      refine ⟨?_, ?_, rfl⟩
      · show (upiTotals (ts.filter validTxn)).totalCredit = _
        rw [upiTotals, fold_credit, foldl_add_filter]
        rfl
      · show (upiTotals (ts.filter validTxn)).totalDebit = _
        rw [upiTotals, fold_debit, foldl_add_filter]
        rfl

def upiDefault : UPIResult := ⟨.nan, .nan, .nan, 0, .nan, default, [], "", false, false⟩

def c6ts : List Txn :=
  [mkTxn "T1" "credit" 5000 "Salary" "income", mkTxn "T2" "debit" 200 "Swiggy" "food",
   mkTxn "T3" "debit" 100 "Swiggy" "food", ⟨"T4", "refund", .str "x", "Zomato", "food", ""⟩]

def c6res : UPIResult := (analyzeUPITransactions c6ts).getD upiDefault

/-- C6 witness at a concrete list containing an invalid record. -/
theorem analyzeUPITransactions_sums_witness :
    c6res.totalCredit = sumAmounts ((c6ts.filter validTxn).filter (fun t => t.type == "credit")) ∧
    c6res.totalDebit = sumAmounts ((c6ts.filter validTxn).filter (fun t => t.type == "debit")) ∧
    c6res.netBalance = JSNum.sub c6res.totalCredit c6res.totalDebit :=
  analyzeUPITransactions_sums c6ts c6res rfl

/-- Well-formedness of the rational model: denominators are positive (every
value constructed by the embedding satisfies this). -/
def jnumWfB : JSNum → Bool
  | .val q => decide (0 < q.d)
  | _ => true

def txnWfB (t : Txn) : Bool := jnumWfB (amtN t)

theorem valid_amt_ne_nan (t : Txn) (h : validTxn t = true) : amtN t ≠ .nan := by
  intro hn
  unfold validTxn at h
  unfold amtN at hn
  cases ham : t.amount <;> rw [ham] at h hn <;> simp_all [JSNum.gtB, JSNum.ltB]

theorem jsLeB_refl (a : JSNum) (ha : a ≠ .nan) : JSNum.leB a a = true := by
  cases a with
  | nan => exact absurd rfl ha
  | inf => rfl
  | ninf => rfl
  | val q => simp [JSNum.leB, JQ.leB]

theorem jsLtB_of_not_le (a b : JSNum) (ha : a ≠ .nan) (hb : b ≠ .nan)
    (h : JSNum.leB a b = false) : JSNum.ltB b a = true := by
  cases a <;> cases b <;>
    simp_all [JSNum.leB, JSNum.ltB, JQ.leB, JQ.ltB] <;>
    try omega

theorem jsLeB_of_lt (a b : JSNum) (h : JSNum.ltB a b = true) : JSNum.leB a b = true := by
  cases a <;> cases b <;>
    simp_all [JSNum.leB, JSNum.ltB, JQ.leB, JQ.ltB] <;>
    try omega

theorem jsLeB_trans (a b c : JSNum) (hb : jnumWfB b = true)
    (h1 : JSNum.leB a b = true) (h2 : JSNum.leB b c = true) : JSNum.leB a c = true := by
  cases a <;> cases b <;> cases c <;>
    simp_all [JSNum.leB, JQ.leB, jnumWfB]
  rename_i qa qb qc
  have H1 : qa.n * qb.d * qc.d ≤ qb.n * qa.d * qc.d :=
    mul_le_mul_of_nonneg_right h1 (Int.natCast_nonneg _)
  have H2 : qb.n * qc.d * qa.d ≤ qc.n * qb.d * qa.d :=
    mul_le_mul_of_nonneg_right h2 (Int.natCast_nonneg _)
  have hbd : (0 : Int) < qb.d := by exact_mod_cast hb
  refine le_of_mul_le_mul_right ?_ hbd
  calc qa.n * qc.d * qb.d = qa.n * qb.d * qc.d := by ring
    _ ≤ qb.n * qa.d * qc.d := H1
    _ = qb.n * qc.d * qa.d := by ring
    _ ≤ qc.n * qb.d * qa.d := H2
    _ = qc.n * qa.d * qb.d := by ring

theorem sortLe_iff (a b : Txn) (ha : amtN a ≠ .nan) (hb : amtN b ≠ .nan) :
    sortLeTxn a b = JSNum.leB (amtN b) (amtN a) := by
  unfold sortLeTxn
  cases hA : amtN a <;> cases hB : amtN b <;>
    simp_all [JSNum.sub, JSNum.add, JSNum.neg, JSNum.leB, JQ.leB, JQ.neg, JQ.add]

theorem sortTxns_ne_nil (l : List Txn) (h : l ≠ []) : sortTxns l ≠ [] := by
  cases l with
  | nil => exact absurd rfl h
  | cons t ts =>
    show insertTxn t (sortTxns ts) ≠ []
    cases sortTxns ts with
    | nil => exact List.cons_ne_nil t []
    | cons u us =>
      rw [insertTxn]
      by_cases hc : sortLeTxn t u = true
      · rw [if_pos hc]; exact List.cons_ne_nil _ _
      · rw [if_neg hc]; exact List.cons_ne_nil _ _

theorem sortTxns_head_spec (l : List Txn) (hval : ∀ t ∈ l, validTxn t = true)
    (hwf : ∀ t ∈ l, txnWfB t = true) :
    l = [] ∨ ∃ i h, l.get? i = some h ∧ (sortTxns l).headI = h ∧
      (∀ u ∈ l, JSNum.leB (amtN u) (amtN h) = true) ∧
      (∀ j, j < i → ∀ u, l.get? j = some u → JSNum.ltB (amtN u) (amtN h) = true) := by
  induction l with
  | nil => exact Or.inl rfl
  | cons t ts ih =>
    have hvt := hval t (List.mem_cons_self t ts)
    rcases ih (fun u hu => hval u (List.mem_cons_of_mem t hu))
        (fun u hu => hwf u (List.mem_cons_of_mem t hu)) with hnil | ⟨i, h, hget, hhead, hmax, hfirst⟩
    · subst hnil
      refine Or.inr ⟨0, t, rfl, rfl, ?_, fun j hj => absurd hj (Nat.not_lt_zero j)⟩
      intro u hu
      rcases List.mem_cons.1 hu with rfl | hu2
      · exact jsLeB_refl _ (valid_amt_ne_nan u hvt)
      · simp at hu2
    · have htsne : ts ≠ [] := by
        intro h0
        rw [h0] at hget
        exact Option.noConfusion hget
      have hmemh : h ∈ ts := List.get?_mem hget
      have hvh := hval h (List.mem_cons_of_mem t hmemh)
      cases hs : sortTxns ts with
      | nil => exact absurd hs (sortTxns_ne_nil ts htsne)
      | cons h2 rest =>
        have hh2 : h2 = h := by rw [hs] at hhead; exact hhead
        subst hh2
        by_cases hcmp : sortLeTxn t h2 = true
        · refine Or.inr ⟨0, t, rfl, ?_, ?_, fun j hj => absurd hj (Nat.not_lt_zero j)⟩
          · show (insertTxn t (sortTxns ts)).headI = t
            rw [hs, insertTxn, if_pos hcmp]
            rfl
          · intro u hu
            have hle_ht : JSNum.leB (amtN h2) (amtN t) = true := by
              rw [← sortLe_iff t h2 (valid_amt_ne_nan t hvt) (valid_amt_ne_nan h2 hvh)]
              exact hcmp
            rcases List.mem_cons.1 hu with rfl | hu2
            · exact jsLeB_refl _ (valid_amt_ne_nan u hvt)
            · exact jsLeB_trans _ _ _ (hwf h2 (List.mem_cons_of_mem t hmemh)) (hmax u hu2) hle_ht
        · have hlt : JSNum.ltB (amtN t) (amtN h2) = true := by
            have hiff := sortLe_iff t h2 (valid_amt_ne_nan t hvt) (valid_amt_ne_nan h2 hvh)
            rw [hiff] at hcmp
            exact jsLtB_of_not_le _ _ (valid_amt_ne_nan h2 hvh) (valid_amt_ne_nan t hvt)
              (Bool.not_eq_true _ ▸ hcmp)
          refine Or.inr ⟨i + 1, h2, by simpa using hget, ?_, ?_, ?_⟩
          · show (insertTxn t (sortTxns ts)).headI = h2
            rw [hs, insertTxn, if_neg hcmp]
            rfl
          · intro u hu
            rcases List.mem_cons.1 hu with rfl | hu2
            · exact jsLeB_of_lt _ _ hlt
            · exact hmax u hu2
          · intro j hj u hget2
            cases j with
            | zero =>
              injection hget2 with he
              rw [← he]
              exact hlt
            | succ j2 =>
              exact hfirst j2 (Nat.lt_of_succ_lt_succ hj) u (by simpa using hget2)

/-- C8: on every transaction list with a non-empty valid subset (with the
embedding invariant of positive denominators), highestTransaction is a
valid record of maximal amount, and it is the first record in input order
among those attaining the maximum: every earlier valid record has a
strictly smaller amount. -/
theorem analyzeUPITransactions_highest (ts : List Txn) (r : UPIResult)
    (h : analyzeUPITransactions ts = some r) (hwf : ∀ t ∈ ts, txnWfB t = true) :
    r.highestTransaction ∈ ts.filter validTxn ∧
    (∀ u ∈ ts.filter validTxn, JSNum.leB (amtN u) (amtN r.highestTransaction) = true) ∧
    ∃ i, (ts.filter validTxn).get? i = some r.highestTransaction ∧
      ∀ j, j < i → ∀ u, (ts.filter validTxn).get? j = some u →
        JSNum.ltB (amtN u) (amtN r.highestTransaction) = true := by
  unfold analyzeUPITransactions at h
  by_cases h1 : ts.length = 0
  · rw [if_pos h1] at h; exact Option.noConfusion h
  · rw [if_neg h1] at h
    by_cases h2 : (ts.filter validTxn).length = 0
    · rw [if_pos h2] at h; exact Option.noConfusion h
    · rw [if_neg h2] at h
      injection h with h3
      have hval : ∀ t ∈ ts.filter validTxn, validTxn t = true :=
        fun t ht => (List.mem_filter.1 ht).2
      have hwf2 : ∀ t ∈ ts.filter validTxn, txnWfB t = true :=
        fun t ht => hwf t (List.mem_filter.1 ht).1
      rcases sortTxns_head_spec (ts.filter validTxn) hval hwf2 with hnil | hspec
      · exact absurd (congrArg List.length hnil) h2
      · obtain ⟨i, hd, hget, hhead, hmax, hfirst⟩ := hspec
        have hht : r.highestTransaction = hd := by rw [← h3]; exact hhead
        rw [hht]
        exact ⟨List.get?_mem hget, hmax, ⟨i, hget, hfirst⟩⟩

def c8ts : List Txn :=
  [mkTxn "T1" "debit" 200 "A" "x", mkTxn "T2" "credit" 900 "B" "x",
   mkTxn "T3" "debit" 900 "C" "x", mkTxn "T4" "credit" 100 "D" "x"]

def c8res : UPIResult := (analyzeUPITransactions c8ts).getD upiDefault

/-- C8 witness at a concrete list with a tie for the maximum amount. -/
theorem analyzeUPITransactions_highest_witness :
    c8res.highestTransaction ∈ c8ts.filter validTxn ∧
    (∀ u ∈ c8ts.filter validTxn, JSNum.leB (amtN u) (amtN c8res.highestTransaction) = true) ∧
    ∃ i, (c8ts.filter validTxn).get? i = some c8res.highestTransaction ∧
      ∀ j, j < i → ∀ u, (c8ts.filter validTxn).get? j = some u →
        JSNum.ltB (amtN u) (amtN c8res.highestTransaction) = true :=
  analyzeUPITransactions_highest c8ts c8res rfl (by decide)

example : c8res.highestTransaction.id = "T2" := rfl

/-- Number of valid transactions to a given contact. -/
def cntTo (l : List Txn) (k : String) : Nat := l.countP (fun t => t.toName == k)

theorem lookup_none_iff (m : List (String × Nat)) (k : String) :
    m.lookup k = none ↔ k ∉ m.map Prod.fst := by
  rw [List.lookup_eq_none_iff]
  constructor
  · intro h hc
    obtain ⟨⟨a, b⟩, hab, he⟩ := List.mem_map.1 hc
    have h2 := h (a, b) hab
    rw [he] at h2
    simp at h2
  · intro h p hp
    refine bne_iff_ne.2 (fun hc => h ?_)
    exact List.mem_map.2 ⟨p, hp, hc.symm⟩

theorem lookup_map_bump_self (k : String) (m : List (String × Nat)) (v : Nat)
    (hv : m.lookup k = some v) :
    (m.map (fun kv => if kv.1 = k then (kv.1, kv.2 + 1) else kv)).lookup k = some (v + 1) := by
  induction m with
  | nil => simp [List.lookup] at hv
  | cons kv m2 ih =>
    by_cases hk : k = kv.1
    · rw [List.lookup_cons] at hv
      simp only [hk, beq_self_eq_true] at hv
      injection hv with hv2
      simp only [List.map_cons, if_pos hk.symm, List.lookup_cons]
      simp [hk, hv2]
    · rw [List.lookup_cons] at hv
      simp only [beq_eq_false_iff_ne.2 (Ne.intro hk)] at hv
      simp only [List.map_cons]
      rw [if_neg (fun hc => hk hc.symm), List.lookup_cons]
      simp only [beq_eq_false_iff_ne.2 (Ne.intro hk)]
      exact ih hv

theorem lookup_map_bump_other (k k2 : String) (m : List (String × Nat)) (h : k2 ≠ k) :
    (m.map (fun kv => if kv.1 = k then (kv.1, kv.2 + 1) else kv)).lookup k2 = m.lookup k2 := by
  induction m with
  | nil => rfl
  | cons kv m2 ih =>
    by_cases hk : kv.1 = k
    · simp only [List.map_cons, if_pos hk]
      rw [List.lookup_cons, List.lookup_cons]
      have hne : (k2 == kv.1) = false := beq_eq_false_iff_ne.2 (fun hc => h (hc.trans hk))
      simp only [hne]
      exact ih
    · simp only [List.map_cons, if_neg hk]
      rw [List.lookup_cons, List.lookup_cons]
      by_cases hk2 : k2 = kv.1
      · simp only [hk2, beq_self_eq_true]
      · simp only [beq_eq_false_iff_ne.2 (Ne.intro hk2)]
        exact ih

theorem lookup_bump_self (m : List (String × Nat)) (k : String) :
    (bumpCount m k).lookup k = some ((m.lookup k).getD 0 + 1) := by
  unfold bumpCount
  cases hm : m.lookup k with
  | some v => exact lookup_map_bump_self k m v hm
  | none =>
    show List.lookup k (m ++ [(k, 1)]) = some (0 + 1)
    rw [List.lookup_append, hm]
    simp

theorem lookup_bump_other (m : List (String × Nat)) (k k2 : String) (h : k2 ≠ k) :
    (bumpCount m k).lookup k2 = m.lookup k2 := by
  unfold bumpCount
  cases hm : m.lookup k with
  | some v => exact lookup_map_bump_other k k2 m h
  | none =>
    show List.lookup k2 (m ++ [(k, 1)]) = List.lookup k2 m
    rw [List.lookup_append]
    cases hm2 : m.lookup k2 with
    | some v => rfl
    | none =>
      simp only [Option.none_or]
      rw [List.lookup_cons]
      simp [beq_eq_false_iff_ne.2 h]

theorem bump_keys_some (m : List (String × Nat)) (k : String) (v : Nat)
    (hm : m.lookup k = some v) : (bumpCount m k).map Prod.fst = m.map Prod.fst := by
  unfold bumpCount
  rw [hm, List.map_map]
  refine List.map_congr_left (fun kv _ => ?_)
  by_cases hk : kv.1 = k
  · simp [hk]
  · simp [hk]

theorem bump_keys_none (m : List (String × Nat)) (k : String)
    (hm : m.lookup k = none) : (bumpCount m k).map Prod.fst = m.map Prod.fst ++ [k] := by
  unfold bumpCount
  rw [hm, List.map_append]
  rfl

theorem bump_nodup (m : List (String × Nat)) (k : String)
    (h : (m.map Prod.fst).Nodup) : ((bumpCount m k).map Prod.fst).Nodup := by
  cases hm : m.lookup k with
  | some v => rw [bump_keys_some m k v hm]; exact h
  | none =>
    rw [bump_keys_none m k hm]
    simp only [List.nodup_append, List.nodup_singleton, List.disjoint_singleton]
    exact ⟨h, trivial, (lookup_none_iff m k).1 hm⟩

theorem buildCount (l : List Txn) : ∀ (m : List (String × Nat)) (k : String),
    (l.foldl (fun m t => bumpCount m t.toName) m).lookup k =
      match m.lookup k with
      | some v => some (v + cntTo l k)
      | none => if cntTo l k = 0 then none else some (cntTo l k) := by
  induction l with
  | nil =>
    intro m k
    rw [List.foldl_nil]
    cases hm : m.lookup k with
    | some v => simp [cntTo]
    | none => simp [cntTo]
  | cons t l2 ih =>
    intro m k
    rw [List.foldl_cons, ih (bumpCount m t.toName) k]
    by_cases hk : k = t.toName
    · rw [show (bumpCount m t.toName).lookup k = some ((m.lookup k).getD 0 + 1) from by
        rw [hk]; exact lookup_bump_self m t.toName]
      have hcnt : cntTo (t :: l2) k = cntTo l2 k + 1 := by
        simp [cntTo, List.countP_cons, hk]
      cases hm : m.lookup k with
      | some v => rw [hcnt]; simp; omega
      | none => rw [hcnt]; simp; omega
    · rw [lookup_bump_other m t.toName k (Ne.intro hk)]
      have hcnt : cntTo (t :: l2) k = cntTo l2 k := by
        simp [cntTo, List.countP_cons, Ne.symm (Ne.intro hk)]
      rw [hcnt]

theorem lookup_of_mem_nodup (m : List (String × Nat)) (kv : String × Nat)
    (hmem : kv ∈ m) (hnd : (m.map Prod.fst).Nodup) : m.lookup kv.1 = some kv.2 := by
  induction m with
  | nil => simp at hmem
  | cons kv2 m2 ih =>
    rcases List.mem_cons.1 hmem with rfl | hmem2
    · exact List.lookup_cons_self
    · rw [List.lookup_cons]
      have hne : kv.1 ≠ kv2.1 := by
        intro hc
        have : kv2.1 ∈ m2.map Prod.fst := by
          rw [← hc]
          exact List.mem_map.2 ⟨kv, hmem2, rfl⟩
        exact (List.nodup_cons.1 hnd).1 this
      simp only [beq_eq_false_iff_ne.2 hne]
      exact ih hmem2 (List.nodup_cons.1 hnd).2

/-- Keys of the contact-frequency object not already present, in order of
first occurrence. -/
def newKeys (seen : List String) : List Txn → List String
  | [] => []
  | t :: l => if t.toName ∈ seen then newKeys seen l
    else t.toName :: newKeys (t.toName :: seen) l

theorem newKeys_congr (l : List Txn) : ∀ (s1 s2 : List String),
    (∀ k, k ∈ s1 ↔ k ∈ s2) → newKeys s1 l = newKeys s2 l := by
  induction l with
  | nil => intro s1 s2 _; rfl
  | cons t l2 ih =>
    intro s1 s2 hs
    by_cases h1 : t.toName ∈ s1
    · rw [newKeys, if_pos h1, newKeys, if_pos ((hs t.toName).1 h1)]
      exact ih s1 s2 hs
    · rw [newKeys, if_neg h1, newKeys, if_neg (fun hc => h1 ((hs t.toName).2 hc))]
      refine congrArg _ (ih _ _ ?_)
      intro k
      simp [hs k]

theorem newKeys_not_seen (l : List Txn) : ∀ (seen : List String) (k : String),
    k ∈ newKeys seen l → k ∉ seen := by
  induction l with
  | nil => intro seen k h; simp [newKeys] at h
  | cons t l2 ih =>
    intro seen k h
    by_cases h1 : t.toName ∈ seen
    · rw [newKeys, if_pos h1] at h
      exact ih seen k h
    · rw [newKeys, if_neg h1] at h
      rcases List.mem_cons.1 h with rfl | h2
      · exact h1
      · intro hc
        exact ih _ k h2 (List.mem_cons_of_mem _ hc)

theorem newKeys_mem (l : List Txn) : ∀ (seen : List String) (t : Txn),
    t ∈ l → t.toName ∉ seen → t.toName ∈ newKeys seen l := by
  induction l with
  | nil => intro seen t h; simp at h
  | cons u l2 ih =>
    intro seen t ht hns
    by_cases h1 : u.toName ∈ seen
    · rw [newKeys, if_pos h1]
      rcases List.mem_cons.1 ht with rfl | ht2
      · exact absurd h1 hns
      · exact ih seen t ht2 hns
    · rw [newKeys, if_neg h1]
      by_cases he : t.toName = u.toName
      · rw [he]
        exact List.mem_cons_self _ _
      · rcases List.mem_cons.1 ht with rfl | ht2
        · exact absurd rfl he
        · refine List.mem_cons_of_mem _ (ih _ t ht2 ?_)
          intro hc
          rcases List.mem_cons.1 hc with hc1 | hc2
          · exact he hc1
          · exact hns hc2

theorem newKeys_sub (l : List Txn) : ∀ (seen : List String) (k : String),
    k ∈ newKeys seen l → ∃ t ∈ l, t.toName = k := by
  induction l with
  | nil => intro seen k h; simp [newKeys] at h
  | cons t l2 ih =>
    intro seen k h
    by_cases h1 : t.toName ∈ seen
    · rw [newKeys, if_pos h1] at h
      obtain ⟨u, hu, he⟩ := ih seen k h
      exact ⟨u, List.mem_cons_of_mem t hu, he⟩
    · rw [newKeys, if_neg h1] at h
      rcases List.mem_cons.1 h with rfl | h2
      · exact ⟨t, List.mem_cons_self t l2, rfl⟩
      · obtain ⟨u, hu, he⟩ := ih _ k h2
        exact ⟨u, List.mem_cons_of_mem t hu, he⟩

theorem buildKeys (l : List Txn) : ∀ (m : List (String × Nat)),
    (l.foldl (fun m t => bumpCount m t.toName) m).map Prod.fst =
      m.map Prod.fst ++ newKeys (m.map Prod.fst) l := by
  induction l with
  | nil => intro m; simp [newKeys]
  | cons t l2 ih =>
    intro m
    rw [List.foldl_cons, ih (bumpCount m t.toName)]
    cases hm : m.lookup t.toName with
    | some v =>
      have hin : t.toName ∈ m.map Prod.fst := by
        by_contra hc
        rw [(lookup_none_iff m t.toName).2 hc] at hm
        exact Option.noConfusion hm
      rw [bump_keys_some m t.toName v hm, newKeys, if_pos hin]
    | none =>
      have hnin : t.toName ∉ m.map Prod.fst := (lookup_none_iff m t.toName).1 hm
      rw [bump_keys_none m t.toName hm, newKeys, if_neg hnin]
      rw [List.append_assoc, List.singleton_append]
      refine congrArg _ (congrArg _ (newKeys_congr l2 _ _ ?_))
      intro k
      simp [List.mem_append, List.mem_cons, or_comm]

theorem fold_bump_nodup (l : List Txn) : ∀ (m : List (String × Nat)),
    (m.map Prod.fst).Nodup →
    ((l.foldl (fun m t => bumpCount m t.toName) m).map Prod.fst).Nodup := by
  induction l with
  | nil => intro m h; exact h
  | cons t l2 ih =>
    intro m h
    rw [List.foldl_cons]
    exact ih _ (bump_nodup m t.toName h)

theorem lookup_mem (m : List (String × Nat)) (k : String) (v : Nat)
    (h : m.lookup k = some v) : (k, v) ∈ m := by
  induction m with
  | nil => exact Option.noConfusion h
  | cons kv m2 ih =>
    obtain ⟨k2, v2⟩ := kv
    rw [List.lookup_cons] at h
    by_cases he : k = k2
    · subst he
      simp only [beq_self_eq_true] at h
      injection h with h2
      rw [← h2]
      exact List.mem_cons_self _ _
    · simp only [beq_eq_false_iff_ne.2 he] at h
      exact List.mem_cons_of_mem _ (ih h)

theorem jsEntriesOrder_id (m : List (String × Nat))
    (h : ∀ kv ∈ m, isArrayIndexKey kv.1 = false) : jsEntriesOrder m = m := by
  unfold jsEntriesOrder
  have h1 : m.filter (fun kv => isArrayIndexKey kv.1) = [] := by
    rw [List.filter_eq_nil]
    intro kv hkv
    simp [h kv hkv]
  have h2 : m.filter (fun kv => !(isArrayIndexKey kv.1)) = m := by
    rw [List.filter_eq_self]
    intro kv hkv
    simp [h kv hkv]
  rw [h1, h2]
  rfl

theorem findIdx_cons_ne (t : Txn) (l : List Txn) (k : String) (h : t.toName ≠ k) :
    (t :: l).findIdx (fun u => u.toName == k) =
      l.findIdx (fun u => u.toName == k) + 1 := by
  rw [List.findIdx_cons]
  simp only [beq_eq_false_iff_ne.2 h, cond_false]

theorem findIdx_cons_self (t : Txn) (l : List Txn) :
    (t :: l).findIdx (fun u => u.toName == t.toName) = 0 := by
  rw [List.findIdx_cons]
  simp

/-- Keys produced by the frequency object are ordered by the position of
their first transaction in the record list. -/
theorem newKeys_pairwise (l : List Txn) : ∀ (seen : List String),
    (newKeys seen l).Pairwise (fun a b =>
      l.findIdx (fun u => u.toName == a) < l.findIdx (fun u => u.toName == b)) := by
  induction l with
  | nil => intro seen; exact List.Pairwise.nil
  | cons t l2 ih =>
    intro seen
    by_cases h1 : t.toName ∈ seen
    · rw [newKeys, if_pos h1]
      refine (ih seen).imp_of_mem ?_
      intro a b ha hb hr
      have hna : t.toName ≠ a := fun hc => (newKeys_not_seen l2 seen a ha) (hc ▸ h1)
      have hnb : t.toName ≠ b := fun hc => (newKeys_not_seen l2 seen b hb) (hc ▸ h1)
      rw [findIdx_cons_ne t l2 a hna, findIdx_cons_ne t l2 b hnb]
      omega
    · rw [newKeys, if_neg h1]
      refine List.Pairwise.cons ?_ ?_
      · intro b hb
        have hnb : t.toName ≠ b := fun hc =>
          (newKeys_not_seen l2 _ b hb) (hc ▸ List.mem_cons_self _ _)
        rw [findIdx_cons_self t l2, findIdx_cons_ne t l2 b hnb]
        omega
      · refine (ih (t.toName :: seen)).imp_of_mem ?_
        intro a b ha hb hr
        have hna : t.toName ≠ a := fun hc =>
          (newKeys_not_seen l2 _ a ha) (hc ▸ List.mem_cons_self _ _)
        have hnb : t.toName ≠ b := fun hc =>
          (newKeys_not_seen l2 _ b hb) (hc ▸ List.mem_cons_self _ _)
        rw [findIdx_cons_ne t l2 a hna, findIdx_cons_ne t l2 b hnb]
        omega

/-- The frequency scan either keeps its seed (everything at most the seed
count) or returns the first entry attaining the maximum count. -/
theorem scan_spec (l : List (String × Nat)) : ∀ (b : String × Nat),
    (l.foldl (fun best kv => if best.2 < kv.2 then kv else best) b = b ∧
      ∀ kv ∈ l, kv.2 ≤ b.2) ∨
    (∃ i, ∃ hi : i < l.length,
      l.foldl (fun best kv => if best.2 < kv.2 then kv else best) b = l.get ⟨i, hi⟩ ∧
      b.2 < (l.get ⟨i, hi⟩).2 ∧
      (∀ kv ∈ l, kv.2 ≤ (l.get ⟨i, hi⟩).2) ∧
      ∀ j, ∀ hj : j < l.length, j < i → (l.get ⟨j, hj⟩).2 < (l.get ⟨i, hi⟩).2) := by
  induction l with
  | nil =>
    intro b
    left
    exact ⟨rfl, by intro kv hkv; exact absurd hkv (List.not_mem_nil kv)⟩
  | cons t l2 ih =>
    intro b
    rw [List.foldl_cons]
    by_cases hbt : b.2 < t.2
    · rw [show (if b.2 < t.2 then t else b) = t from if_pos hbt]
      rcases ih t with ⟨heq, hall⟩ | ⟨i, hi, heq, hgt, hall, hprior⟩
      · right
        refine ⟨0, Nat.succ_pos _, heq, hbt, ?_, ?_⟩
        · intro kv hkv
          rcases List.mem_cons.1 hkv with rfl | hkv2
          · exact Nat.le_refl _
          · exact hall kv hkv2
        · intro j hj hji
          exact absurd hji (Nat.not_lt_zero j)
      · right
        refine ⟨i + 1, Nat.succ_lt_succ hi, heq, Nat.lt_trans hbt hgt, ?_, ?_⟩
        · intro kv hkv
          rcases List.mem_cons.1 hkv with rfl | hkv2
          · exact Nat.le_of_lt hgt
          · exact hall kv hkv2
        · intro j hj hji
          cases j with
          | zero => exact hgt
          | succ j2 => exact hprior j2 (Nat.lt_of_succ_lt_succ hj) (Nat.lt_of_succ_lt_succ hji)
    · rw [show (if b.2 < t.2 then t else b) = b from if_neg hbt]
      rcases ih b with ⟨heq, hall⟩ | ⟨i, hi, heq, hgt, hall, hprior⟩
      · left
        refine ⟨heq, ?_⟩
        intro kv hkv
        rcases List.mem_cons.1 hkv with rfl | hkv2
        · exact Nat.le_of_not_lt hbt
        · exact hall kv hkv2
      · right
        refine ⟨i + 1, Nat.succ_lt_succ hi, heq, hgt, ?_, ?_⟩
        · intro kv hkv
          rcases List.mem_cons.1 hkv with rfl | hkv2
          · exact Nat.le_of_lt (Nat.lt_of_le_of_lt (Nat.le_of_not_lt hbt) hgt)
          · exact hall kv hkv2
        · intro j hj hji
          cases j with
          | zero => exact Nat.lt_of_le_of_lt (Nat.le_of_not_lt hbt) hgt
          | succ j2 => exact hprior j2 (Nat.lt_of_succ_lt_succ hj) (Nat.lt_of_succ_lt_succ hji)

theorem mem_insertIdxKey (kv : String × Nat) (l : List (String × Nat)) (x : String × Nat) :
    x ∈ insertIdxKey kv l ↔ x = kv ∨ x ∈ l := by
  induction l with
  | nil => simp [insertIdxKey]
  | cons kv2 rest ih =>
    rw [insertIdxKey]
    by_cases hle : natOfDigits kv.1.data ≤ natOfDigits kv2.1.data
    · rw [if_pos hle]
      simp [List.mem_cons]
    · rw [if_neg hle]
      simp only [List.mem_cons, ih]
      tauto

theorem mem_sortIdxKeys (l : List (String × Nat)) (x : String × Nat) :
    x ∈ sortIdxKeys l ↔ x ∈ l := by
  induction l with
  | nil => simp [sortIdxKeys]
  | cons kv rest ih =>
    rw [sortIdxKeys, mem_insertIdxKey, ih]
    simp [List.mem_cons]

/-- Object.entries enumerates exactly the object entries (in its own
order). -/
theorem mem_jsEntriesOrder (m : List (String × Nat)) (x : String × Nat) :
    x ∈ jsEntriesOrder m ↔ x ∈ m := by
  unfold jsEntriesOrder
  rw [List.mem_append, mem_sortIdxKeys]
  constructor
  · intro h
    rcases h with h1 | h1
    · exact (List.mem_filter.1 h1).1
    · exact (List.mem_filter.1 h1).1
  · intro h
    by_cases hp : isArrayIndexKey x.1 = true
    · exact Or.inl (List.mem_filter.2 ⟨h, hp⟩)
    · refine Or.inr (List.mem_filter.2 ⟨h, ?_⟩)
      simp [hp]

/-- C3: whenever a result is returned, frequentContact is a valid "to"
value of maximal valid-transaction count; when additionally no valid "to"
name is an array-index string (JavaScript objects enumerate integer-like
keys first in ascending numeric order, see the companion counterexample),
the tie-break picks the value whose first valid transaction is earliest. -/
theorem analyzeUPITransactions_frequent (ts : List Txn) (r : UPIResult)
    (h : analyzeUPITransactions ts = some r) :
    (∃ t ∈ ts.filter validTxn, t.toName = r.frequentContact) ∧
    (∀ t ∈ ts.filter validTxn, cntTo (ts.filter validTxn) t.toName ≤
      cntTo (ts.filter validTxn) r.frequentContact) ∧
    ((∀ t ∈ ts.filter validTxn, isArrayIndexKey t.toName = false) →
      ∀ t ∈ ts.filter validTxn, cntTo (ts.filter validTxn) t.toName =
        cntTo (ts.filter validTxn) r.frequentContact →
      (ts.filter validTxn).findIdx (fun u => u.toName == r.frequentContact) ≤
        (ts.filter validTxn).findIdx (fun u => u.toName == t.toName)) := by
  unfold analyzeUPITransactions at h
  by_cases h1 : ts.length = 0
  · rw [if_pos h1] at h; exact Option.noConfusion h
  rw [if_neg h1] at h
  by_cases h2 : (ts.filter validTxn).length = 0
  · rw [if_pos h2] at h; exact Option.noConfusion h
  rw [if_neg h2] at h
  injection h with h3
  have hfc : r.frequentContact = (freqScan (jsEntriesOrder
      ((upiTotals (ts.filter validTxn)).contactFrequency))).1 := by
    rw [← h3]
  have hm : (upiTotals (ts.filter validTxn)).contactFrequency =
      (ts.filter validTxn).foldl (fun m t => bumpCount m t.toName) [] := by
    rw [upiTotals, fold_freq]
  rw [hm] at hfc
  set l := ts.filter validTxn with hldef
  set m := l.foldl (fun m t => bumpCount m t.toName) [] with hmdef
  have hkeys : m.map Prod.fst = newKeys [] l := by
    rw [hmdef, buildKeys]
    rfl
  have hnd : (m.map Prod.fst).Nodup := fold_bump_nodup l [] (by simp)
  have hlook : ∀ k, m.lookup k =
      if cntTo l k = 0 then none else some (cntTo l k) := by
    intro k
    rw [hmdef, buildCount l [] k]
    rfl
  have hent : ∀ kv ∈ m, kv.2 = cntTo l kv.1 ∧ 1 ≤ kv.2 := by
    intro kv hkv
    have hlk := lookup_of_mem_nodup m kv hkv hnd
    rw [hlook kv.1] at hlk
    by_cases hc : cntTo l kv.1 = 0
    · rw [if_pos hc] at hlk; exact Option.noConfusion hlk
    · rw [if_neg hc] at hlk
      injection hlk with h4
      exact ⟨h4.symm, by omega⟩
  have hmem : ∀ t ∈ l, (t.toName, cntTo l t.toName) ∈ m := by
    intro t ht
    apply lookup_mem
    rw [hlook]
    have hpos : 0 < cntTo l t.toName := by
      unfold cntTo
      exact List.countP_pos.2 ⟨t, ht, by simp⟩
    rw [if_neg (by omega)]
  have hmemE : ∀ t ∈ l, (t.toName, cntTo l t.toName) ∈ jsEntriesOrder m :=
    fun t ht => (mem_jsEntriesOrder m _).2 (hmem t ht)
  have hlne : ∃ t, t ∈ l := by
    cases hc : l with
    | nil => rw [hc] at h2; exact absurd rfl h2
    | cons a l2 => exact ⟨a, hc ▸ List.mem_cons_self a l2⟩
  have hcntpos : ∀ t ∈ l, 0 < cntTo l t.toName := by
    intro t ht
    unfold cntTo
    exact List.countP_pos.2 ⟨t, ht, by simp⟩
  rcases scan_spec (jsEntriesOrder m) ("", 0) with ⟨heq, hall⟩ | ⟨i, hi, heq, hgt, hall, hprior⟩
  · exfalso
    obtain ⟨t, ht⟩ := hlne
    have := hall _ (hmemE t ht)
    have hpos := hcntpos t ht
    simp at this
    omega
  · have hfcE : r.frequentContact = ((jsEntriesOrder m).get ⟨i, hi⟩).1 := by
      rw [hfc, freqScan, heq]
    have hbmem : (jsEntriesOrder m).get ⟨i, hi⟩ ∈ m :=
      (mem_jsEntriesOrder m _).1 (List.get_mem _ i hi)
    obtain ⟨hbcnt, hbpos⟩ := hent _ hbmem
    refine ⟨?_, ?_, ?_⟩
    · have hk : ((jsEntriesOrder m).get ⟨i, hi⟩).1 ∈ newKeys [] l := by
        rw [← hkeys]
        exact List.mem_map.2 ⟨_, hbmem, rfl⟩
      obtain ⟨t, ht, hte⟩ := newKeys_sub l [] _ hk
      exact ⟨t, ht, by rw [hte, hfcE]⟩
    · intro t ht
      have := hall _ (hmemE t ht)
      rw [hfcE, ← hbcnt]
      exact this
    · intro hnoidx t ht hcnt
      have hord : jsEntriesOrder m = m := by
        apply jsEntriesOrder_id
        intro kv hkv
        have hk : kv.1 ∈ newKeys [] l := by
          rw [← hkeys]
          exact List.mem_map.2 ⟨kv, hkv, rfl⟩
        obtain ⟨u, hu, hue⟩ := newKeys_sub l [] kv.1 hk
        rw [← hue]
        exact hnoidx u hu
      rw [hord] at hfc
      rcases scan_spec m ("", 0) with ⟨heq2, hall2⟩ | ⟨i2, hi2, heq2, hall2big, hall2, hprior2⟩
      · exfalso
        obtain ⟨u, hu⟩ := hlne
        have := hall2 _ (hmem u hu)
        have hpos := hcntpos u hu
        simp at this
        omega
      · have hfc2 : r.frequentContact = (m.get ⟨i2, hi2⟩).1 := by
          rw [hfc, freqScan, heq2]
        obtain ⟨hbcnt2, hbpos2⟩ := hent _ (List.get_mem m i2 hi2)
        rw [hfc2] at hcnt ⊢
        obtain ⟨jf, hgetj⟩ := List.get_of_mem (hmem t ht)
        have hij : i2 ≤ jf.val := by
          by_contra hc
          have hlt := hprior2 jf.val jf.isLt (by omega)
          have : (m.get jf).2 = cntTo l t.toName := by rw [hgetj]
          rw [show (⟨jf.val, jf.isLt⟩ : Fin m.length) = jf from rfl] at hlt
          omega
        rcases Nat.lt_or_ge i2 jf.val with hlt | hge
        · have hi3 : i2 < (m.map Prod.fst).length := by
            rw [List.length_map]; exact hi2
          have hj3 : jf.val < (m.map Prod.fst).length := by
            rw [List.length_map]; exact jf.isLt
          have hp := newKeys_pairwise l ([] : List String)
          rw [← hkeys] at hp
          have hr := (List.pairwise_iff_get.1 hp) ⟨i2, hi3⟩ ⟨jf.val, hj3⟩ (Fin.mk_lt_mk.2 hlt)
          have ha : (m.map Prod.fst).get ⟨i2, hi3⟩ = (m.get ⟨i2, hi2⟩).1 := by simp
          have hb : (m.map Prod.fst).get ⟨jf.val, hj3⟩ = (m.get jf).1 := by simp
          rw [ha, hb] at hr
          have hj1 : (m.get jf).1 = t.toName := by rw [hgetj]
          rw [hj1] at hr
          exact Nat.le_of_lt hr
        · have hij2 : (⟨i2, hi2⟩ : Fin m.length) = jf := Fin.ext (Nat.le_antisymm hij hge)
          rw [hij2, hgetj]


def c3ts : List Txn :=
  [mkTxn "T1" "credit" 100 "99" "upi", mkTxn "T2" "credit" 100 "1" "upi"]

def c3res : UPIResult := (analyzeUPITransactions c3ts).getD upiDefault

/-- C3 counterexample: the contact "99" has its first (and only) valid
transaction before the single transaction of "1" and both counts are 1,
yet frequentContact is "1": Object.entries enumerates the integer-like
keys in ascending numeric order, not insertion order, so the tie-break is
not first-encountered for such names. -/
theorem analyzeUPITransactions_numeric_contact_order :
    c3res.frequentContact = "1" ∧
    cntTo (c3ts.filter validTxn) "99" = cntTo (c3ts.filter validTxn) "1" ∧
    (c3ts.filter validTxn).findIdx (fun u => u.toName == "99") <
      (c3ts.filter validTxn).findIdx (fun u => u.toName == "1") :=
  ⟨rfl, rfl, by decide⟩

def c3wts : List Txn :=
  [mkTxn "T1" "credit" 100 "Asha" "upi", mkTxn "T2" "debit" 200 "Ravi" "upi",
   mkTxn "T3" "credit" 300 "Asha" "upi"]

def c3wres : UPIResult := (analyzeUPITransactions c3wts).getD upiDefault

/-- C3 witness at a concrete list with non-integer-like contact names. -/
theorem analyzeUPITransactions_frequent_witness :
    (∃ t ∈ c3wts.filter validTxn, t.toName = c3wres.frequentContact) ∧
    (∀ t ∈ c3wts.filter validTxn, cntTo (c3wts.filter validTxn) t.toName ≤
      cntTo (c3wts.filter validTxn) c3wres.frequentContact) ∧
    ((∀ t ∈ c3wts.filter validTxn, isArrayIndexKey t.toName = false) →
      ∀ t ∈ c3wts.filter validTxn, cntTo (c3wts.filter validTxn) t.toName =
        cntTo (c3wts.filter validTxn) c3wres.frequentContact →
      (c3wts.filter validTxn).findIdx (fun u => u.toName == c3wres.frequentContact) ≤
        (c3wts.filter validTxn).findIdx (fun u => u.toName == t.toName)) :=
  analyzeUPITransactions_frequent c3wts c3wres rfl
